import Mathlib

/-!
# luaserver: the connection registry and the line framer of `new_server.c`

A shallow embedding of `src/new_server.c` and the properties proved about it.

* Part 1 embeds the connection list (`ll_conn_create`, `ll_conn_append`,
  `ll_conn_remove`) as a sentinel count plus the sequence of entries that follow
  the sentinel node.
* Part 2 embeds `l_read_conn`: the read loop, the scan for newlines and the calls it
  makes into Lua, over an explicit Lua stack.
* Part 3 embeds the dispatch pass of `main`, `ll_conn_remove` and `ll_conn_delete` over
  an explicit heap of nodes, so that a read through a freed node is an observable fault.
* Part 4 embeds the `while (1)` loop of `main`: `select`, the accept step and the
  dispatch pass, over the list of Part 1 and the Lua states of Part 2.

Conventions: a C `int` is an `Int`; where the source does arithmetic on a stored `int`
(`list->value++`, `list->value--`) the result is reduced to the 32-bit two's complement
range by `wrap32`.  `malloc` is assumed to succeed (the source has no handling for its
failure and would dereference NULL).
-/

namespace LuaServer

/-! ## Part 1: the connection list -/

/-- Smallest value of a C `int` (32 bit). -/
def INT_MIN : Int := -2147483648

/-- Largest value of a C `int` (32 bit). -/
def INT_MAX : Int := 2147483647

/-- Reduction of an integer to the 32-bit two's complement range. -/
def wrap32 (x : Int) : Int := (x + 2147483648) % 4294967296 - 2147483648

/-- A `lua_State *`: an opaque handle; `0` is `NULL`. -/
abbrev lua_State_ptr := Nat

/-- The payload of one connection node of the list (a `struct node_t` after the
sentinel): the descriptor `value` and the handler `state`. -/
structure conn_entry where
  value : Int
  state : lua_State_ptr
deriving DecidableEq, Repr

/-- A connection list as `ll_conn_t *list` sees it: the sentinel node, whose `value`
field is used as the entry count, and the entries reached through `next`, in order. -/
structure ll_conn_t where
  value : Int
  entries : List conn_entry
deriving DecidableEq, Repr

/-- `ll_conn_create`: a sentinel with `next = NULL`, `value = 0`, `state = NULL`. -/
def ll_conn_create : ll_conn_t := { value := 0, entries := [] }

/-- The loop of `ll_conn_append` over the nodes after `temp`: `none` when a node with
the same `value` is met (`return -1`), otherwise the chain with a new last node. -/
def ll_conn_append_loop (value : Int) (state : lua_State_ptr) :
    List conn_entry → Option (List conn_entry)
  | [] => some [{ value := value, state := state }]
  | e :: rest =>
    if e.value = value then none
    else (ll_conn_append_loop value state rest).map (fun r => e :: r)

/-- `ll_conn_append(list, value, state)`: the returned `int` and the list afterwards. -/
def ll_conn_append (list : ll_conn_t) (value : Int) (state : lua_State_ptr) :
    Int × ll_conn_t :=
  match ll_conn_append_loop value state list.entries with
  | none => (-1, list)
  | some es => (0, { value := wrap32 (list.value + 1), entries := es })

/-- The loop of `ll_conn_remove` over the nodes after `iter`: `none` when the end is
reached without a match, otherwise the chain with the first matching node unlinked. -/
def ll_conn_remove_loop (value : Int) : List conn_entry → Option (List conn_entry)
  | [] => none
  | e :: rest =>
    if e.value = value then some rest
    else (ll_conn_remove_loop value rest).map (fun r => e :: r)

/-- `ll_conn_remove(list, value)`: the returned `int` and the list afterwards. -/
def ll_conn_remove (list : ll_conn_t) (value : Int) : Int × ll_conn_t :=
  match ll_conn_remove_loop value list.entries with
  | none => (0, list)
  | some es => (1, { value := wrap32 (list.value - 1), entries := es })

/-- One call on the registry, with its arguments. -/
inductive ll_op where
  | append (value : Int) (state : lua_State_ptr)
  | remove (value : Int)
deriving DecidableEq, Repr

/-- The list after one call (the returned `int` is dropped, as `main` does). -/
def ll_apply (list : ll_conn_t) : ll_op → ll_conn_t
  | .append v s => (ll_conn_append list v s).2
  | .remove v => (ll_conn_remove list v).2

/-- The list after a finite sequence of calls, starting from `list`. -/
def ll_run (list : ll_conn_t) (ops : List ll_op) : ll_conn_t :=
  ops.foldl ll_apply list

/-! ## Part 2: `l_read_conn` -/

/-- `READ_OVERFLOW_SIZE_LIMIT`: the size at which the read loop stops buffering. -/
def READ_OVERFLOW_SIZE_LIMIT : Nat := 4098

/-- `READ_BUFFER_SIZE`: the size of the static read buffer, the most one `read` returns. -/
def READ_BUFFER_SIZE : Nat := 4098

/-- A value in a slot of the Lua stack, as far as `l_read_conn` produces them:
`onread` is what `lua_getglobal(L, G_ONREAD_HANDLER)` pushes (the handler function that
`lua/state.lua` binds to the global `OnRead`), `str` is what `lua_pushlstring` pushes. -/
inductive lua_Value where
  | onread
  | str (bytes : List Char)
deriving DecidableEq, Repr

/-- One `lua_call`: the value found in function position and the arguments passed to
it, first argument first. -/
structure lua_call_event where
  callee : lua_Value
  args : List lua_Value
deriving DecidableEq, Repr

/-- What `l_read_conn` sees of a `lua_State`: its stack, top first, and the log of the
calls made into it so far, oldest first. -/
structure lua_State where
  stack : List lua_Value
  calls : List lua_call_event
deriving DecidableEq, Repr

/-- `lua_getglobal(L, G_ONREAD_HANDLER)`: pushes the value of the global `OnRead`. -/
def lua_getglobal (L : lua_State) : lua_State :=
  { L with stack := lua_Value.onread :: L.stack }

/-- `LUA_MINSTACK` of `lua.h`: the number of free stack slots the Lua API guarantees
to C code; to push beyond them the caller has to reserve room with `lua_checkstack`,
which `l_read_conn` never calls. -/
def LUA_MINSTACK : Nat := 20

/-- `lua_pushlstring(L, s, len)`: pushes the string of the `len` bytes at `s`.  The stack
here is a list that takes every push, so that its length is the number of slots the code
asks for; only `LUA_MINSTACK` of them are guaranteed to exist, and a run that holds more
is one in which the program writes beyond the Lua stack. -/
def lua_pushlstring (L : lua_State) (bytes : List Char) : lua_State :=
  { L with stack := lua_Value.str bytes :: L.stack }

/-- `lua_call(L, nargs, 0)`: pops `nargs` arguments and the slot below them and calls
that slot's value with the arguments; no result is pushed.  The call is logged.  When the
value in function position is the handler the call returns (`ok`); when it is a string,
Lua raises "attempt to call a string value", which in an unprotected call ends in the
panic handler and `abort()`: `error`, with the state at that moment.  A stack with fewer
than `nargs + 1` slots is outside the API contract and also yields `error`. -/
def lua_call (L : lua_State) (nargs : Nat) : Except lua_State lua_State :=
  match L.stack.drop nargs with
  | [] => .error L
  | f :: below =>
    let L1 : lua_State :=
      { stack := below, calls := L.calls ++ [⟨f, (L.stack.take nargs).reverse⟩] }
    match f with
    | .onread => .ok L1
    | .str _ => .error L1

/-- The local variables of `l_read_conn` together with the Lua state it works on.
`overflow_count` and `overflow_size` are C `int`s that only count up from 0 by at most a
buffer length per read and stay far below `INT_MAX`, so they are natural numbers here.
`reads` and `peak` are ghost counters: the number of `read` calls that returned data,
and the largest value `overflow_size` has been assigned. -/
structure rd_state where
  L : lua_State
  overflow_count : Nat
  overflow_size : Nat
  reads : Nat
  peak : Nat
deriving DecidableEq, Repr

/-- What one turn of the `while (1)` loop gets from the socket: `idle` when
`ioctl(FIONREAD)` reports `len == 0`, `error` when `read` returns -1, and `data bytes`
when `read` returns `count = bytes.length` with `buffer[0..count)` holding `bytes`
(an empty `bytes` is `count == 0`, end of file). -/
inductive read_event where
  | idle
  | error
  | data (bytes : List Char)
deriving DecidableEq, Repr

/-- The bytes `lua_pushlstring(L, buffer + start, len)` reads. -/
def buffer_slice (buffer : List Char) (start len : Nat) : List Char :=
  (buffer.drop start).take len

/-- The `for (i = ...; i < count; i++)` loop of `l_read_conn`, with `n = count - i` turns
left: returns the final `start` and state, or `error` when a `lua_call` aborted. -/
def scan_buffer (buffer : List Char) :
    Nat → Nat → Nat → rd_state → Except rd_state (Nat × rd_state)
  | 0, _, start, s => .ok (start, s)
  | n + 1, i, start, s =>
    if buffer.getD i ' ' ≠ '\n' then scan_buffer buffer n (i + 1) start s
    else
      let L1 := if s.overflow_count = 0 then lua_getglobal s.L else s.L
      let L2 := lua_pushlstring L1 (buffer_slice buffer start (i - start))
      match lua_call L2 1 with
      | .error L3 => .error { s with L := L3 }
      | .ok L3 =>
        scan_buffer buffer n (i + 1) (i + 1)
          { s with L := L3, overflow_count := 0, overflow_size := 0 }

/-- The `while (1)` loop of `l_read_conn` over the events the socket delivers; a socket
with no further event has no data (`len == 0`).  Returns the state at the `break`, or
`error` when a `lua_call` aborted. -/
def read_loop : List read_event → rd_state → Except rd_state rd_state
  | [], s => .ok s
  | .idle :: _, s => .ok s
  | .error :: _, s => .ok s
  | .data buffer :: rest, s =>
    let count := buffer.length
    if count = 0 then .ok s
    else
      match scan_buffer buffer count 0 0 { s with reads := s.reads + 1 } with
      | .error s1 => .error s1
      | .ok (start, s1) =>
        if start < count then
          let L1 := if s1.overflow_count = 0 then lua_getglobal s1.L else s1.L
          let L2 := lua_pushlstring L1 (buffer_slice buffer start (count - start))
          let size := s1.overflow_size + (count - start)
          let s2 : rd_state :=
            { s1 with L := L2, overflow_size := size,
                      overflow_count := s1.overflow_count + 1, peak := max s1.peak size }
          if size ≥ READ_OVERFLOW_SIZE_LIMIT then .ok s2 else read_loop rest s2
        else read_loop rest s1

/-- The outcome of one `l_read_conn`: the Lua state afterwards, the locals as they
were when the loop was left, and whether a `lua_call` aborted the process. -/
structure rd_result where
  L : lua_State
  locals : rd_state
  panic : Bool
deriving DecidableEq, Repr

/-- The end of `l_read_conn`, after the `while (1)` loop: `if (overflow_count)
lua_call(L, overflow_count, 0)`; nothing runs when a `lua_call` in the loop aborted. -/
def l_read_conn_end : Except rd_state rd_state → rd_result
  | .error s => { L := s.L, locals := s, panic := true }
  | .ok s =>
    if s.overflow_count ≠ 0 then
      match lua_call s.L s.overflow_count with
      | .error L1 => { L := L1, locals := s, panic := true }
      | .ok L1 => { L := L1, locals := s, panic := false }
    else { L := s.L, locals := s, panic := false }

/-- `l_read_conn(L, connfd)` on a socket that delivers `events`: the locals are
initialised (`overflow_count = 0, overflow_size = 0`), the loop runs, then the end. -/
def l_read_conn (L : lua_State) (events : List read_event) : rd_result :=
  l_read_conn_end (read_loop events
    { L := L, overflow_count := 0, overflow_size := 0, reads := 0, peak := 0 })

/-- Successive `l_read_conn(L, connfd)` calls on one connection, as successive cycles
of `main` make them: the Lua state is carried from one to the next, and nothing runs
after an abort.  Returns the final Lua state and whether the process aborted. -/
def l_read_conn_repeat (L : lua_State) : List (List read_event) → lua_State × Bool
  | [] => (L, false)
  | events :: rest =>
    let r := l_read_conn L events
    if r.panic then (r.L, true) else l_read_conn_repeat r.L rest

/-- The call `OnRead(line)`: the handler in function position, one string argument. -/
def onread_call (line : List Char) : lua_call_event :=
  { callee := lua_Value.onread, args := [lua_Value.str line] }

/-- The bytes of `lines`, each followed by a newline. -/
def terminated (lines : List (List Char)) : List Char :=
  (lines.map (fun l => l ++ ['\n'])).flatten

/-- The complete lines of `bytes` that follows a pending fragment `cur`, and the
unterminated remainder: a line is the bytes strictly between two successive newlines
(or from the start to the first newline). -/
def split_lines (cur : List Char) : List Char → List (List Char) × List Char
  | [] => ([], cur)
  | c :: cs =>
    if c = '\n' then (cur :: (split_lines [] cs).1, (split_lines [] cs).2)
    else split_lines (cur ++ [c]) cs

/-- How one turn of the `while (1)` loop ends: the loop goes on with the next turn, it
is left by a `break`, or a `lua_call` has aborted. -/
inductive loop_turn where
  | next (s : rd_state)
  | stop (s : rd_state)
  | abort (s : rd_state)

/-- One turn of the `while (1)` loop of `l_read_conn`, from the state `s` at its start
(`read_loop_turn` shows that `read_loop` is the iteration of this). -/
def read_turn (ev : read_event) (s : rd_state) : loop_turn :=
  match ev with
  | .idle => .stop s
  | .error => .stop s
  | .data buffer =>
    let count := buffer.length
    if count = 0 then .stop s
    else
      match scan_buffer buffer count 0 0 { s with reads := s.reads + 1 } with
      | .error s1 => .abort s1
      | .ok (start, s1) =>
        if start < count then
          let L1 := if s1.overflow_count = 0 then lua_getglobal s1.L else s1.L
          let L2 := lua_pushlstring L1 (buffer_slice buffer start (count - start))
          let size := s1.overflow_size + (count - start)
          let s2 : rd_state :=
            { s1 with L := L2, overflow_size := size,
                      overflow_count := s1.overflow_count + 1, peak := max s1.peak size }
          if size ≥ READ_OVERFLOW_SIZE_LIMIT then .stop s2 else .next s2
        else .next s1

/-- The states at the start of each turn of the `while (1)` loop that is run on
`events` from `s`, in order; the last turn is the one that leaves the loop. -/
def read_loop_starts : List read_event → rd_state → List rd_state
  | [], s => [s]
  | ev :: rest, s =>
    s :: (match read_turn ev s with
      | .next s1 => read_loop_starts rest s1
      | .stop _ => []
      | .abort _ => [])

/-! ## Part 3: the dispatch pass of `main`, over a heap of nodes -/

namespace Mem

/-- A `struct node_t` in memory; `next` is an address, `0` is `NULL`. -/
structure node_t where
  next : Nat
  value : Int
  state : lua_State_ptr
deriving DecidableEq, Repr

/-- The memory the list lives in: `heap p` is the node allocated at address `p`, or
`none` when nothing is allocated there (never allocated, or freed).  `closed` logs the
states given to `lua_close`, `freed` the addresses given to `free`, oldest first. -/
structure memory where
  heap : Nat → Option node_t
  closed : List lua_State_ptr
  freed : List Nat

/-- Ways an execution over the heap can go wrong: a read or write through a pointer to
no allocated node (NULL, dangling or freed), or the step budget running out. -/
inductive fault where
  | invalid_access (addr : Nat)
  | out_of_fuel
deriving DecidableEq, Repr

/-- A read through pointer `p`. -/
def load (m : memory) (p : Nat) : Except fault node_t :=
  match m.heap p with
  | some n => .ok n
  | none => .error (.invalid_access p)

/-- The heap with the node at `p` replaced by `n`. -/
def store (h : Nat → Option node_t) (p : Nat) (n : Option node_t) : Nat → Option node_t :=
  fun a => if a = p then n else h a

/-- The loop of `ll_conn_remove(list, value)` with `iter` as given, `fuel` turns at most.
On a match: `iter->next = temp->next; lua_close(temp->state); free(temp);
list->value--; return 1`. -/
def ll_conn_remove_loop (list : Nat) (value : Int) :
    Nat → memory → Nat → Except fault (Int × memory)
  | 0, _, _ => .error .out_of_fuel
  | fuel + 1, m, iter =>
    match load m iter with
    | .error e => .error e
    | .ok it =>
      if it.next = 0 then .ok (0, m)
      else
        match load m it.next with
        | .error e => .error e
        | .ok temp =>
          if temp.value = value then
            let m1 : memory := { m with heap := store m.heap iter (some { it with next := temp.next }) }
            let m2 : memory :=
              { heap := store m1.heap it.next none,
                closed := m1.closed ++ [temp.state],
                freed := m1.freed ++ [it.next] }
            match load m2 list with
            | .error e => .error e
            | .ok l =>
              .ok (1, { m2 with
                heap := store m2.heap list (some { l with value := wrap32 (l.value - 1) }) })
          else ll_conn_remove_loop list value fuel m it.next

/-- `ll_conn_remove(list, value)` on the heap: the loop starts with `iter = list`. -/
def ll_conn_remove (fuel : Nat) (m : memory) (list : Nat) (value : Int) :
    Except fault (Int × memory) :=
  ll_conn_remove_loop list value fuel m list

/-- What the dispatch pass does, in order: `visit` is the read of `temp->value` and
`temp->state` through `temp = node`; `removed` is a call `ll_conn_remove(connections,
connfd)`; `read` is a call `l_read_conn(L, connfd)`. -/
inductive pass_event where
  | visit (node : Nat) (connfd : Int) (L : lua_State_ptr)
  | removed (connfd : Int)
  | read (L : lua_State_ptr) (connfd : Int)
deriving DecidableEq, Repr

/-- What a dispatch pass leaves: the memory, the events so far, the Lua state behind each
`lua_State *`, and whether a `lua_call` inside `l_read_conn` has aborted the process, in
which case the rest of the pass has not run. -/
structure pass_result where
  mem : memory
  log : List pass_event
  lua : lua_State_ptr → lua_State
  panic : Bool

/-- The loop `for (temp = connections->next; temp != NULL;)` of `main` from a given
`temp`.  `isset connfd` is `FD_ISSET(connfd, &fds)`; `j k` is the byte count that
`ioctl(connfd, FIONREAD, &j)` reports at the `k`-th node visited; `socket k` is what the
socket of that node delivers to `l_read_conn`, which runs on the Lua state `lua L`
and has no access to the list.  When a `lua_call` in `l_read_conn` aborts, the pass ends
there.  `rfuel` is the step budget given to each `ll_conn_remove`. -/
def dispatch_loop (rfuel : Nat) (connections : Nat) (isset : Int → Bool) (j : Nat → Nat)
    (socket : Nat → List read_event) :
    Nat → memory → (lua_State_ptr → lua_State) → Nat → Nat → List pass_event →
      Except fault pass_result
  | 0, _, _, _, _, _ => .error .out_of_fuel
  | fuel + 1, m, lua, temp, k, log =>
    if temp = 0 then .ok { mem := m, log := log, lua := lua, panic := false }
    else
      match load m temp with
      | .error e => .error e
      | .ok node =>
        let connfd := node.value
        let L := node.state
        let log1 := log ++ [pass_event.visit temp connfd L]
        if isset connfd then
          if j k = 0 then
            match ll_conn_remove rfuel m connections connfd with
            | .error e => .error e
            | .ok r =>
              dispatch_loop rfuel connections isset j socket fuel r.2 lua node.next (k + 1)
                (log1 ++ [pass_event.removed connfd])
          else
            let r := l_read_conn (lua L) (socket k)
            let lua1 : lua_State_ptr → lua_State := fun p => if p = L then r.L else lua p
            if r.panic then
              .ok { mem := m, log := log1 ++ [pass_event.read L connfd], lua := lua1,
                    panic := true }
            else
              dispatch_loop rfuel connections isset j socket fuel m lua1 node.next (k + 1)
                (log1 ++ [pass_event.read L connfd])
        else dispatch_loop rfuel connections isset j socket fuel m lua node.next (k + 1) log1

/-- The dispatch pass of `main`: the loop started at `temp = connections->next`. -/
def dispatch_pass (rfuel fuel : Nat) (m : memory) (lua : lua_State_ptr → lua_State)
    (connections : Nat) (isset : Int → Bool) (j : Nat → Nat)
    (socket : Nat → List read_event) : Except fault pass_result :=
  match load m connections with
  | .error e => .error e
  | .ok sentinel =>
    dispatch_loop rfuel connections isset j socket fuel m lua sentinel.next 0 []

/-- The nodes visited, in order: address, descriptor and state read at each. -/
def visits : List pass_event → List (Nat × Int × lua_State_ptr)
  | [] => []
  | .visit node connfd L :: rest => (node, connfd, L) :: visits rest
  | _ :: rest => visits rest

/-- The nodes reached from pointer `p` through `next` up to `NULL` are exactly `nodes`
(address and payload of each, in order), all allocated in `h`. -/
def chain (h : Nat → Option node_t) : Nat → List (Nat × conn_entry) → Prop
  | p, [] => p = 0
  | p, n :: rest =>
    p = n.1 ∧ n.1 ≠ 0 ∧
      ∃ nx, h n.1 = some { next := nx, value := n.2.value, state := n.2.state } ∧
        chain h nx rest

/-- The heap holds a connection list at `list`: an allocated sentinel, followed by the
nodes `nodes`, no two of all these at the same address. -/
def is_list (h : Nat → Option node_t) (list : Nat) (nodes : List (Nat × conn_entry)) : Prop :=
  (∃ sentinel, h list = some sentinel ∧ chain h sentinel.next nodes) ∧
    (list :: nodes.map Prod.fst).Nodup

/-- A heap for examples: the sentinel at address 10 and three connection nodes at 11,
12 and 13, with descriptors 5, 7 and 9. -/
def example_heap : Nat → Option node_t := fun a =>
  if a = 10 then some { next := 11, value := 3, state := 0 }
  else if a = 11 then some { next := 12, value := 5, state := 100 }
  else if a = 12 then some { next := 13, value := 7, state := 101 }
  else if a = 13 then some { next := 0, value := 9, state := 102 }
  else none

/-- The loop of `ll_conn_delete`: `for (temp = list->next; temp != NULL; list = temp,
temp = temp->next) { lua_close(list->state); free(list); }`, from given `list` and `temp`,
`fuel` turns at most.  `lua_close` is logged with the pointer it is given, `NULL`
included. -/
def ll_conn_delete_loop : Nat → memory → Nat → Nat → Except fault memory
  | 0, _, _, _ => .error .out_of_fuel
  | fuel + 1, m, list, temp =>
    if temp = 0 then .ok m
    else
      match load m list with
      | .error e => .error e
      | .ok l =>
        let m1 : memory :=
          { heap := store m.heap list none,
            closed := m.closed ++ [l.state],
            freed := m.freed ++ [list] }
        match load m1 temp with
        | .error e => .error e
        | .ok t => ll_conn_delete_loop fuel m1 temp t.next

/-- `ll_conn_delete(list)` on the heap: the loop starts with `temp = list->next`. -/
def ll_conn_delete (fuel : Nat) (m : memory) (list : Nat) : Except fault memory :=
  match load m list with
  | .error e => .error e
  | .ok l => ll_conn_delete_loop fuel m list l.next

/-- A heap for examples: the empty list that `ll_conn_create` builds, its sentinel at
address 10. -/
def empty_heap : Nat → Option node_t := fun a =>
  if a = 10 then some { next := 0, value := 0, state := 0 } else none

/-- The connection visited `k`-th is signalled ready and has zero readable bytes. -/
def peer_closed (isset : Int → Bool) (j : Nat → Nat) (k : Nat) (e : conn_entry) : Bool :=
  isset e.value && decide (j k = 0)

/-- What a pass is to do at the node visited `k`-th: read it; when it is signalled ready,
remove it on zero readable bytes and call `l_read_conn` otherwise; nothing more when it is
not signalled ready. -/
def node_events (isset : Int → Bool) (j : Nat → Nat) (k : Nat) (n : Nat × conn_entry) :
    List pass_event :=
  pass_event.visit n.1 n.2.value n.2.state ::
    (if isset n.2.value then
      (if j k = 0 then [pass_event.removed n.2.value]
       else [pass_event.read n.2.state n.2.value])
     else [])

/-- The events of a pass over `nodes`, the first of which is visited `k`-th. -/
def pass_log (isset : Int → Bool) (j : Nat → Nat) : Nat → List (Nat × conn_entry) → List pass_event
  | _, [] => []
  | k, n :: rest => node_events isset j k n ++ pass_log isset j (k + 1) rest

/-- The nodes of `nodes` that are not signalled ready with zero readable bytes. -/
def pass_kept (isset : Int → Bool) (j : Nat → Nat) :
    Nat → List (Nat × conn_entry) → List (Nat × conn_entry)
  | _, [] => []
  | k, n :: rest =>
    if peer_closed isset j k n.2 then pass_kept isset j (k + 1) rest
    else n :: pass_kept isset j (k + 1) rest

/-- The nodes of `nodes` that are signalled ready with zero readable bytes. -/
def pass_erased (isset : Int → Bool) (j : Nat → Nat) :
    Nat → List (Nat × conn_entry) → List (Nat × conn_entry)
  | _, [] => []
  | k, n :: rest =>
    if peer_closed isset j k n.2 then n :: pass_erased isset j (k + 1) rest
    else pass_erased isset j (k + 1) rest

end Mem

/-! ## Part 4: the event loop of `main` -/

/-- The state of `main` between two turns of its `while (1)` loop: the connection list,
`maxfd`, the Lua state behind each `lua_State *`, and whether a `lua_call` has aborted
the process.  `created` and `closed` are ghost logs: the states returned by
`l_create_state` and the states given to `lua_close`, oldest first. -/
structure server where
  connections : ll_conn_t
  maxfd : Int
  lua : lua_State_ptr → lua_State
  created : List lua_State_ptr
  closed : List lua_State_ptr
  panic : Bool

/-- What the system gives to one turn of the loop: `n` is the result of `select`,
`isset` is `FD_ISSET(., &fds)` after `select`, `accepted` is the result of `accept` if it is
called, `j k` is the byte count `ioctl(connfd, FIONREAD, &j)` reports at the `k`-th
connection visited, and `socket k` is what that connection's socket delivers to
`l_read_conn`. -/
structure cycle where
  n : Int
  isset : Int → Bool
  accepted : Int
  j : Nat → Nat
  socket : Nat → List read_event

/-- The state of `main` before its loop: `connections = ll_conn_create()`, `maxfd = 0`. -/
def main_init : server :=
  { connections := ll_conn_create, maxfd := 0, lua := fun _ => { stack := [], calls := [] },
    created := [], closed := [], panic := false }

/-- `l_create_state(connfd)`: a new Lua state, distinct from every state created before
(`luaL_newstate` is taken to succeed and `lua/state.lua` to leave the stack empty). -/
def l_create_state (_connfd : Int) (s : server) : lua_State_ptr × server :=
  (s.created.length + 1,
    { s with
      created := s.created ++ [s.created.length + 1],
      lua := fun p => if p = s.created.length + 1 then { stack := [], calls := [] }
        else s.lua p })

/-- The states that `ll_conn_remove(list, value)` gives to `lua_close`: the state of the
first entry with that value, if there is one. -/
def ll_conn_remove_closes (list : ll_conn_t) (value : Int) : List lua_State_ptr :=
  match list.entries.find? (fun e => decide (e.value = value)) with
  | some e => [e.state]
  | none => []

/-- The body of `if (FD_ISSET(listenfd, &fds))` in `main`: `accept`, `l_create_state`,
`ll_conn_append`, the update of `maxfd`.  Neither the result of `accept` nor that of
`ll_conn_append` changes what is done next. -/
def accept_step (connfd : Int) (s : server) : server :=
  let created := l_create_state connfd s
  let appended := ll_conn_append created.2.connections connfd created.1
  { created.2 with
    connections := appended.2,
    maxfd := if connfd ≥ created.2.maxfd then wrap32 (connfd + 1) else created.2.maxfd }

/-- The dispatch pass of `main` over the entries the list holds when the pass begins,
the first of `todo` being visited `k`-th (`temp` runs over exactly these nodes, and the
heap then holds what this leaves: `Mem.dispatch_loop_visits`, `Mem.dispatch_pass_refines`).  A connection that is signalled ready is removed when it
has zero readable bytes and is read by `l_read_conn` otherwise; when a `lua_call` in
`l_read_conn` aborts, nothing more is done. -/
def dispatch_list (c : cycle) : List conn_entry → Nat → server → server
  | [], _, s => s
  | e :: rest, k, s =>
    if c.isset e.value then
      if c.j k = 0 then
        dispatch_list c rest (k + 1)
          { s with
            connections := (ll_conn_remove s.connections e.value).2,
            closed := s.closed ++ ll_conn_remove_closes s.connections e.value }
      else
        let r := l_read_conn (s.lua e.state) (c.socket k)
        let s1 : server :=
          { s with lua := fun p => if p = e.state then r.L else s.lua p, panic := r.panic }
        if r.panic then s1 else dispatch_list c rest (k + 1) s1
    else dispatch_list c rest (k + 1) s

/-- The `nfds` argument of the `select` call of a turn that starts in state `s`:
`maxfd` after `if (listenfd >= maxfd) maxfd = listenfd + 1`. -/
def select_nfds (listenfd : Int) (s : server) : Int :=
  if listenfd ≥ s.maxfd then wrap32 (listenfd + 1) else s.maxfd

/-- One turn of the `while (1)` loop of `main`; nothing happens once the process has
aborted. -/
def main_cycle (listenfd : Int) (s : server) (c : cycle) : server :=
  if s.panic then s
  else
    let s1 : server := { s with maxfd := select_nfds listenfd s }
    if c.n > 0 then
      let s2 := if c.isset listenfd then accept_step c.accepted s1 else s1
      dispatch_list c s2.connections.entries 0 s2
    else s1

/-- The state of `main` after the turns `cycles`, starting from `s`. -/
def main_loop (listenfd : Int) (s : server) (cycles : List cycle) : server :=
  cycles.foldl (main_cycle listenfd) s

/-- A turn in which only the listener is ready and `accept` returns `connfd`. -/
def accept_cycle (listenfd connfd : Int) : cycle :=
  { n := 1, isset := fun fd => decide (fd = listenfd), accepted := connfd,
    j := fun _ => 0, socket := fun _ => [] }

/-- The entries of `entries` that are not signalled ready with zero readable bytes, the
first of `entries` being visited `k`-th. -/
def kept_entries (isset : Int → Bool) (j : Nat → Nat) : Nat → List conn_entry → List conn_entry
  | _, [] => []
  | k, e :: rest =>
    if Mem.peer_closed isset j k e then kept_entries isset j (k + 1) rest
    else e :: kept_entries isset j (k + 1) rest

/-- A state of `main` for examples: the connections 4 and 5 have been accepted, with the
listener on descriptor 3. -/
def example_server : server :=
  main_loop 3 main_init [accept_cycle 3 4, accept_cycle 3 5]

/-- A turn for examples: the connections 4 and 5 are both signalled ready; the first
connection visited has one readable byte and its `read` fails, the second has none. -/
def read_error_cycle : cycle :=
  { n := 2, isset := fun fd => decide (fd = 4 ∨ fd = 5), accepted := 0,
    j := fun k => if k = 0 then 1 else 0,
    socket := fun k => if k = 0 then [read_event.error] else [] }

/-! ### Lemmas on the list loops -/

theorem ll_conn_append_loop_eq_none (v : Int) (s : lua_State_ptr) (es : List conn_entry) :
    ll_conn_append_loop v s es = none ↔ ∃ e ∈ es, e.value = v := by
  induction es with
  | nil => simp [ll_conn_append_loop]
  | cons e rest ih =>
    by_cases h : e.value = v
    · simp [ll_conn_append_loop, h]
    · simp [ll_conn_append_loop, h, ih]

theorem ll_conn_append_loop_eq_some (v : Int) (s : lua_State_ptr) (es r : List conn_entry)
    (h : ll_conn_append_loop v s es = some r) :
    r = es ++ [{ value := v, state := s }] ∧ ∀ e ∈ es, e.value ≠ v := by
  induction es generalizing r with
  | nil =>
    simp [ll_conn_append_loop] at h
    simp [← h]
  | cons e rest ih =>
    by_cases hv : e.value = v
    · simp [ll_conn_append_loop, hv] at h
    · simp only [ll_conn_append_loop, hv, if_false, Option.map_eq_some'] at h
      obtain ⟨r', hr', rfl⟩ := h
      obtain ⟨h1, h2⟩ := ih r' hr'
      refine ⟨by simp [h1], ?_⟩
      intro x hx
      rcases List.mem_cons.1 hx with rfl | hx
      · exact hv
      · exact h2 x hx

theorem ll_conn_remove_loop_eq_none (v : Int) (es : List conn_entry) :
    ll_conn_remove_loop v es = none ↔ ∀ e ∈ es, e.value ≠ v := by
  induction es with
  | nil => simp [ll_conn_remove_loop]
  | cons e rest ih =>
    by_cases h : e.value = v
    · simp [ll_conn_remove_loop, h]
    · simp [ll_conn_remove_loop, h, ih]

theorem ll_conn_remove_loop_eq_some (v : Int) (es r : List conn_entry)
    (h : ll_conn_remove_loop v es = some r) :
    ∃ pre e post, es = pre ++ e :: post ∧ e.value = v ∧ (∀ x ∈ pre, x.value ≠ v) ∧
      r = pre ++ post := by
  induction es generalizing r with
  | nil => simp [ll_conn_remove_loop] at h
  | cons e rest ih =>
    by_cases hv : e.value = v
    · simp only [ll_conn_remove_loop, hv, if_true, Option.some.injEq] at h
      exact ⟨[], e, rest, by simp, hv, by simp, by simp [h]⟩
    · simp only [ll_conn_remove_loop, hv, if_false, Option.map_eq_some'] at h
      obtain ⟨r', hr', rfl⟩ := h
      obtain ⟨pre, x, post, h1, h2, h3, h4⟩ := ih r' hr'
      refine ⟨e :: pre, x, post, by simp [h1], h2, ?_, by simp [h4]⟩
      intro y hy
      rcases List.mem_cons.1 hy with rfl | hy
      · exact hv
      · exact h3 y hy

theorem wrap32_of_range (x : Int) (h1 : INT_MIN ≤ x) (h2 : x ≤ INT_MAX) : wrap32 x = x := by
  unfold wrap32
  unfold INT_MIN at h1
  unfold INT_MAX at h2
  omega

theorem ll_conn_remove_loop_values_sublist (v : Int) (es r : List conn_entry)
    (h : ll_conn_remove_loop v es = some r) :
    (r.map conn_entry.value).Sublist (es.map conn_entry.value) := by
  obtain ⟨pre, e, post, h1, -, -, h4⟩ := ll_conn_remove_loop_eq_some v es r h
  subst h1 h4
  simp only [List.map_append, List.map_cons]
  exact List.Sublist.append (List.Sublist.refl _) (List.sublist_cons_self _ _)

theorem ll_apply_nodup (list : ll_conn_t) (op : ll_op)
    (h : (list.entries.map conn_entry.value).Nodup) :
    ((ll_apply list op).entries.map conn_entry.value).Nodup := by
  cases op with
  | append v s =>
    simp only [ll_apply, ll_conn_append]
    cases hl : ll_conn_append_loop v s list.entries with
    | none => simpa using h
    | some r =>
      obtain ⟨h1, h2⟩ := ll_conn_append_loop_eq_some v s list.entries r hl
      subst h1
      simp only [List.map_append, List.map_cons, List.map_nil]
      refine List.Nodup.append h (List.nodup_singleton _) ?_
      intro x hx hx'
      simp only [List.mem_singleton] at hx'
      subst hx'
      obtain ⟨e, he, hev⟩ := List.mem_map.1 hx
      exact h2 e he hev
  | remove v =>
    simp only [ll_apply, ll_conn_remove]
    cases hl : ll_conn_remove_loop v list.entries with
    | none => simpa using h
    | some r => exact h.sublist (ll_conn_remove_loop_values_sublist v list.entries r hl)

theorem ll_run_nodup (ops : List ll_op) (list : ll_conn_t)
    (h : (list.entries.map conn_entry.value).Nodup) :
    ((ll_run list ops).entries.map conn_entry.value).Nodup := by
  induction ops generalizing list with
  | nil => simpa [ll_run] using h
  | cons op rest ih =>
    simp only [ll_run, List.foldl_cons]
    exact ih (ll_apply list op) (ll_apply_nodup list op h)

/-! ### C1 to C3: the registry contract -/

/-- C1: `ll_conn_append(list, v, state)` returns -1 exactly when some entry of the list
already has value `v`, and then the list is unchanged: same entries in the same order
with their states, same sentinel count; the existing entry is not replaced. -/
theorem ll_conn_append_collision (list : ll_conn_t) (v : Int) (state : lua_State_ptr) :
    ((ll_conn_append list v state).1 = -1 ↔ ∃ e ∈ list.entries, e.value = v) ∧
    ((ll_conn_append list v state).1 = -1 → (ll_conn_append list v state).2 = list) := by
  unfold ll_conn_append
  cases hl : ll_conn_append_loop v state list.entries with
  | none =>
    refine ⟨⟨fun _ => (ll_conn_append_loop_eq_none v state list.entries).1 hl, fun _ => rfl⟩,
      fun _ => rfl⟩
  | some r =>
    have hne : ¬ ∃ e ∈ list.entries, e.value = v := by
      intro hex
      rw [(ll_conn_append_loop_eq_none v state list.entries).2 hex] at hl
      cases hl
    constructor
    · constructor
      · intro h
        simp at h
      · intro h
        exact absurd h hne
    · intro h
      simp at h

/-- C2: for a list whose sentinel count is an `int` above `INT_MIN` (so that the
decrement does not overflow), `ll_conn_remove(list, v)` returns 1 exactly when an entry
with value `v` is present, and 0 otherwise; when it returns 1 the entries afterwards are
the original entries with the first entry of value `v` erased, the others kept with
their states in their original order, and the sentinel count is one less; when it
returns 0 the list is unchanged. -/
theorem ll_conn_remove_contract (list : ll_conn_t) (v : Int)
    (hlo : INT_MIN < list.value) (hhi : list.value ≤ INT_MAX) :
    ((ll_conn_remove list v).1 = 1 ↔ ∃ e ∈ list.entries, e.value = v) ∧
    ((ll_conn_remove list v).1 = 1 →
      ∃ pre e post, list.entries = pre ++ e :: post ∧ e.value = v ∧
        (∀ x ∈ pre, x.value ≠ v) ∧
        (ll_conn_remove list v).2 = { value := list.value - 1, entries := pre ++ post }) ∧
    ((ll_conn_remove list v).1 ≠ 1 →
      (ll_conn_remove list v).1 = 0 ∧ (ll_conn_remove list v).2 = list) := by
  unfold ll_conn_remove
  cases hl : ll_conn_remove_loop v list.entries with
  | none =>
    have hne := (ll_conn_remove_loop_eq_none v list.entries).1 hl
    refine ⟨⟨fun h => by simp at h, fun ⟨e, he, hev⟩ => absurd hev (hne e he)⟩,
      fun h => by simp at h, fun _ => ⟨rfl, rfl⟩⟩
  | some r =>
    obtain ⟨pre, e, post, h1, h2, h3, h4⟩ := ll_conn_remove_loop_eq_some v list.entries r hl
    refine ⟨⟨fun _ => ⟨e, by simp [h1], h2⟩, fun _ => rfl⟩, fun _ => ?_, fun h => by simp at h⟩
    refine ⟨pre, e, post, h1, h2, h3, ?_⟩
    have hw : wrap32 (list.value - 1) = list.value - 1 := by
      apply wrap32_of_range
      · unfold INT_MIN at *; omega
      · unfold INT_MAX at *; omega
    simp [hw, h4]

/-- Witness for C2: a list of two connections, from which descriptor 5 is removed. -/
theorem ll_conn_remove_contract_witness :
    (INT_MIN < (2 : Int) ∧ (2 : Int) ≤ INT_MAX) ∧
    ((ll_conn_remove { value := 2, entries := [⟨4, 1⟩, ⟨5, 2⟩] } 5).1 = 1 ↔
      ∃ e ∈ [(⟨4, 1⟩ : conn_entry), ⟨5, 2⟩], e.value = 5) :=
  ⟨⟨by decide, by decide⟩,
    (ll_conn_remove_contract { value := 2, entries := [⟨4, 1⟩, ⟨5, 2⟩] } 5
      (by decide) (by decide)).1⟩

/-- C3: identity uniqueness is an invariant of the registry: in every list reached from
`ll_conn_create()` by a finite sequence of `ll_conn_append` and `ll_conn_remove` calls with
arbitrary arguments (failing calls included), no two entries have the same descriptor. -/
theorem ll_conn_values_unique (ops : List ll_op) :
    ((ll_run ll_conn_create ops).entries.map conn_entry.value).Nodup :=
  ll_run_nodup ops ll_conn_create (by simp [ll_conn_create])

/-! ### Lemmas on the scan for newlines -/

theorem scan_buffer_skip (buffer : List Char) (m n i start : Nat) (s : rd_state)
    (h : ∀ k, k < m → buffer.getD (i + k) ' ' ≠ '\n') :
    scan_buffer buffer (m + n) i start s = scan_buffer buffer n (i + m) start s := by
  induction m generalizing i with
  | zero => simp
  | succ m ih =>
    have h0 : buffer.getD i ' ' ≠ '\n' := by simpa using h 0 (Nat.succ_pos m)
    have e : m + 1 + n = (m + n) + 1 := by omega
    rw [e, scan_buffer, if_pos h0, ih (i + 1)]
    · congr 1; omega
    · intro k hk
      have := h (k + 1) (by omega)
      rwa [show i + (k + 1) = i + 1 + k by omega] at this

theorem scan_buffer_newline (buffer : List Char) (n i start : Nat) (s : rd_state)
    (h : buffer.getD i ' ' = '\n') (hc : s.overflow_count = 0) :
    scan_buffer buffer (n + 1) i start s =
      scan_buffer buffer n (i + 1) (i + 1)
        { s with L := { stack := s.L.stack,
                        calls := s.L.calls ++ [onread_call (buffer_slice buffer start (i - start))] },
                 overflow_count := 0, overflow_size := 0 } := by
  have h' : ¬ buffer.getD i ' ' ≠ '\n' := fun e => e h
  rw [scan_buffer, if_neg h']
  simp [hc, lua_call, lua_getglobal, lua_pushlstring, onread_call]

theorem split_lines_append (cur l t : List Char) (h : '\n' ∉ l) :
    split_lines cur (l ++ t) = split_lines (cur ++ l) t := by
  induction l generalizing cur with
  | nil => simp
  | cons c l ih =>
    have hc : c ≠ '\n' := fun e => h (by simp [e])
    have hl : '\n' ∉ l := fun e => h (by simp [e])
    simp [split_lines, hc, ih _ hl]

theorem split_lines_terminated (lines : List (List Char)) (rem : List Char)
    (hl : ∀ l ∈ lines, '\n' ∉ l) (hr : '\n' ∉ rem) :
    split_lines [] (terminated lines ++ rem) = (lines, rem) := by
  induction lines with
  | nil =>
    have := split_lines_append [] rem [] hr
    simpa [terminated, split_lines] using this
  | cons l ls ih =>
    have h1 : '\n' ∉ l := hl l (by simp)
    have h2 : ∀ l ∈ ls, '\n' ∉ l := fun x hx => hl x (by simp [hx])
    have e : terminated (l :: ls) ++ rem = l ++ ('\n' :: (terminated ls ++ rem)) := by
      simp [terminated]
    rw [e, split_lines_append _ _ _ h1]
    simp [split_lines, ih h2]

theorem split_lines_spec (cur bytes : List Char) (hc : '\n' ∉ cur) :
    cur ++ bytes = terminated (split_lines cur bytes).1 ++ (split_lines cur bytes).2 ∧
    (∀ l ∈ (split_lines cur bytes).1, '\n' ∉ l) ∧ '\n' ∉ (split_lines cur bytes).2 := by
  induction bytes generalizing cur with
  | nil => simp [split_lines, terminated, hc]
  | cons c cs ih =>
    by_cases h : c = '\n'
    · obtain ⟨h1, h2, h3⟩ := ih [] (by simp)
      simp only [List.nil_append] at h1
      subst h
      simp only [split_lines, if_true]
      refine ⟨?_, ?_, h3⟩
      · rw [terminated, List.map_cons, List.flatten_cons, ← terminated]
        simp only [List.append_assoc, List.singleton_append, List.cons_append]
        rw [← h1]
        simp
      · intro l hl
        rcases List.mem_cons.1 hl with rfl | hl
        · exact hc
        · exact h2 l hl
    · have hc' : '\n' ∉ cur ++ [c] := by
        simp only [List.mem_append, List.mem_singleton, not_or]
        exact ⟨hc, fun e => h e.symm⟩
      obtain ⟨h1, h2, h3⟩ := ih (cur ++ [c]) hc'
      simp only [split_lines, h, if_false]
      refine ⟨?_, h2, h3⟩
      rw [← h1]; simp

theorem getD_append_mid (pre l post : List Char) (k : Nat) (hk : k < l.length) :
    (pre ++ l ++ post).getD (pre.length + k) ' ' = l.getD k ' ' := by
  simp [List.getD_eq_getElem?_getD, List.getElem?_append_left, List.getElem?_append_right, hk]

theorem scan_buffer_lines (buffer : List Char) (lines : List (List Char))
    (pre post : List Char) (m : Nat) (s : rd_state)
    (hb : buffer = pre ++ terminated lines ++ post) (hl : ∀ l ∈ lines, '\n' ∉ l)
    (hc : s.overflow_count = 0) (hs : s.overflow_size = 0) :
    scan_buffer buffer ((terminated lines).length + m) pre.length pre.length s =
      scan_buffer buffer m
        (pre.length + (terminated lines).length) (pre.length + (terminated lines).length)
        { s with L := { stack := s.L.stack, calls := s.L.calls ++ lines.map onread_call } } := by
  induction lines generalizing pre s with
  | nil =>
    obtain ⟨L, oc, os, r, p⟩ := s
    obtain ⟨st, cl⟩ := L
    simp [terminated]
  | cons l ls ih =>
    have h1 : '\n' ∉ l := hl l (by simp)
    have h2 : ∀ x ∈ ls, '\n' ∉ x := fun x hx => hl x (by simp [hx])
    have et : terminated (l :: ls) = l ++ '\n' :: terminated ls := by simp [terminated]
    have eb : buffer = pre ++ l ++ ('\n' :: (terminated ls ++ post)) := by
      rw [hb, et]; simp
    have eb' : buffer = (pre ++ l ++ ['\n']) ++ terminated ls ++ post := by
      rw [hb, et]; simp
    have hskip : ∀ k, k < l.length → buffer.getD (pre.length + k) ' ' ≠ '\n' := by
      intro k hk
      rw [eb, getD_append_mid pre l _ k hk, List.getD_eq_getElem _ _ hk]
      intro e
      exact h1 (e ▸ List.getElem_mem hk)
    have hnl : buffer.getD (pre.length + l.length) ' ' = '\n' := by
      have := getD_append_mid (pre ++ l) ['\n'] (terminated ls ++ post) 0 (by simp)
      simpa [eb] using this
    have hslice : buffer_slice buffer pre.length (pre.length + l.length - pre.length) = l := by
      rw [eb]
      simp [buffer_slice]
    have elen : (terminated (l :: ls)).length + m = l.length + ((terminated ls).length + m + 1) := by
      rw [et]; simp; omega
    rw [elen, scan_buffer_skip buffer _ _ _ _ _ hskip, scan_buffer_newline buffer _ _ _ _ hnl hc,
      hslice]
    have := ih (pre ++ l ++ ['\n'])
      { s with L := { stack := s.L.stack, calls := s.L.calls ++ [onread_call l] },
               overflow_count := 0, overflow_size := 0 } eb' h2 rfl rfl
    simp only [List.length_append, List.length_singleton] at this
    rw [this, et]
    simp only [List.length_append, List.length_cons, List.map_cons, List.append_assoc,
      List.singleton_append]
    rw [hc, hs]
    have e3 : pre.length + l.length + 1 + (terminated ls).length =
        pre.length + (l.length + ((terminated ls).length + 1)) := by omega
    rw [e3]

theorem scan_buffer_chunk (lines : List (List Char)) (rem : List Char) (s : rd_state)
    (hl : ∀ l ∈ lines, '\n' ∉ l) (hr : '\n' ∉ rem)
    (hc : s.overflow_count = 0) (hs : s.overflow_size = 0) :
    scan_buffer (terminated lines ++ rem) (terminated lines ++ rem).length 0 0 s =
      .ok ((terminated lines).length,
        { s with L := { stack := s.L.stack, calls := s.L.calls ++ lines.map onread_call } }) := by
  have h1 := scan_buffer_lines (terminated lines ++ rem) lines [] rem rem.length s (by simp) hl hc hs
  simp only [List.length_nil, Nat.zero_add] at h1
  rw [List.length_append, h1]
  have hskip : ∀ k, k < rem.length →
      (terminated lines ++ rem).getD ((terminated lines).length + k) ' ' ≠ '\n' := by
    intro k hk
    have := getD_append_mid (terminated lines) rem [] k hk
    simp only [List.append_nil] at this
    rw [this, List.getD_eq_getElem _ _ hk]
    intro e
    exact hr (e ▸ List.getElem_mem hk)
  have h2 := scan_buffer_skip (terminated lines ++ rem) rem.length 0 (terminated lines).length
    (terminated lines).length
    { s with L := { stack := s.L.stack, calls := s.L.calls ++ lines.map onread_call } } hskip
  simp only [Nat.add_zero] at h2
  rw [h2]
  rfl

/-! ### Lemmas on the read loop -/

theorem terminated_length_pos (lines : List (List Char)) (h : lines ≠ []) :
    0 < (terminated lines).length := by
  cases lines with
  | nil => exact absurd rfl h
  | cons l ls => simp [terminated]

/-- A chunk made of complete lines only, read with nothing pending: one `OnRead` call
per line, and the loop goes on with nothing pending. -/
theorem read_loop_lines (lines : List (List Char)) (rest : List read_event) (s : rd_state)
    (hne : lines ≠ []) (hl : ∀ l ∈ lines, '\n' ∉ l)
    (hc : s.overflow_count = 0) (hs : s.overflow_size = 0) :
    read_loop (.data (terminated lines) :: rest) s =
      read_loop rest
        { s with L := { stack := s.L.stack, calls := s.L.calls ++ lines.map onread_call },
                 reads := s.reads + 1 } := by
  have hpos := terminated_length_pos lines hne
  have h := scan_buffer_chunk lines [] { s with reads := s.reads + 1 } hl (by simp) hc hs
  simp only [List.append_nil] at h
  rw [read_loop]
  simp only [h]
  rw [if_neg (by omega), if_neg (by omega)]

/-- A chunk that ends in an unterminated remainder, read with nothing pending: one
`OnRead` call per complete line, then the handler and the remainder are pushed. -/
theorem read_loop_remainder (lines : List (List Char)) (rem : List Char)
    (rest : List read_event) (s : rd_state)
    (hl : ∀ l ∈ lines, '\n' ∉ l) (hr : '\n' ∉ rem) (hne : rem ≠ [])
    (hc : s.overflow_count = 0) (hs : s.overflow_size = 0) :
    read_loop (.data (terminated lines ++ rem) :: rest) s =
      if rem.length ≥ READ_OVERFLOW_SIZE_LIMIT then
        .ok { L := { stack := lua_Value.str rem :: lua_Value.onread :: s.L.stack,
                     calls := s.L.calls ++ lines.map onread_call },
              overflow_count := 1, overflow_size := rem.length,
              reads := s.reads + 1, peak := max s.peak rem.length }
      else
        read_loop rest
          { L := { stack := lua_Value.str rem :: lua_Value.onread :: s.L.stack,
                   calls := s.L.calls ++ lines.map onread_call },
            overflow_count := 1, overflow_size := rem.length,
            reads := s.reads + 1, peak := max s.peak rem.length } := by
  have hpos : 0 < rem.length := List.length_pos.2 hne
  have h := scan_buffer_chunk lines rem { s with reads := s.reads + 1 } hl hr hc hs
  rw [read_loop]
  simp only [h]
  rw [if_neg (by simp [hne])]
  rw [if_pos (by simp [hpos])]
  simp [hc, hs, buffer_slice, lua_getglobal, lua_pushlstring]
theorem lua_call_ok_calls (L L1 : lua_State) (n : Nat) (h : lua_call L n = .ok L1) :
    L.calls <+: L1.calls := by
  unfold lua_call at h
  split at h
  · cases h
  · rename_i f below _
    cases f with
    | onread =>
      simp only [Except.ok.injEq] at h
      subst h
      exact List.prefix_append _ _
    | str b => cases h

theorem lua_call_error_calls (L L1 : lua_State) (n : Nat) (h : lua_call L n = .error L1) :
    L.calls <+: L1.calls := by
  unfold lua_call at h
  split at h
  · simp only [Except.error.injEq] at h
    subst h
    exact List.prefix_refl _
  · rename_i f below _
    cases f with
    | onread => cases h
    | str b =>
      simp only [Except.error.injEq] at h
      subst h
      exact List.prefix_append _ _

theorem lua_push_calls (L : lua_State) (c : Prop) [Decidable c] (bytes : List Char) :
    (lua_pushlstring (if c then lua_getglobal L else L) bytes).calls = L.calls := by
  split <;> rfl

theorem scan_buffer_calls (buffer : List Char) (n i start : Nat) (s : rd_state) :
    (∀ r, scan_buffer buffer n i start s = .ok r → s.L.calls <+: r.2.L.calls) ∧
    (∀ e, scan_buffer buffer n i start s = .error e → s.L.calls <+: e.L.calls) := by
  induction n generalizing i start s with
  | zero =>
    constructor
    · intro r h
      simp only [scan_buffer, Except.ok.injEq] at h
      subst h
      exact List.prefix_refl _
    · intro e h
      simp [scan_buffer] at h
  | succ n ih =>
    rw [scan_buffer]
    by_cases hnl : buffer.getD i ' ' ≠ '\n'
    · rw [if_pos hnl]
      exact ih _ _ _
    · rw [if_neg hnl]
      have hp := lua_push_calls s.L (s.overflow_count = 0) (buffer_slice buffer start (i - start))
      cases hc : lua_call (lua_pushlstring (if s.overflow_count = 0 then lua_getglobal s.L else s.L)
          (buffer_slice buffer start (i - start))) 1 with
      | error L3 =>
        have h3 := lua_call_error_calls _ _ _ hc
        rw [hp] at h3
        simp only [hc]
        constructor
        · intro r h
          cases h
        · intro e h
          simp only [Except.error.injEq] at h
          subst h
          exact h3
      | ok L3 =>
        have h3 := lua_call_ok_calls _ _ _ hc
        rw [hp] at h3
        simp only [hc]
        obtain ⟨ih1, ih2⟩ := ih (i + 1) (i + 1)
          { s with L := L3, overflow_count := 0, overflow_size := 0 }
        exact ⟨fun r h => h3.trans (ih1 r h), fun e h => h3.trans (ih2 e h)⟩

theorem read_loop_calls (events : List read_event) (s : rd_state) :
    (∀ r, read_loop events s = .ok r → s.L.calls <+: r.L.calls) ∧
    (∀ e, read_loop events s = .error e → s.L.calls <+: e.L.calls) := by
  induction events generalizing s with
  | nil =>
    constructor
    · intro r h
      simp only [read_loop, Except.ok.injEq] at h
      subst h
      exact List.prefix_refl _
    · intro e h
      simp [read_loop] at h
  | cons ev rest ih =>
    cases ev with
    | idle =>
      constructor
      · intro r h
        simp only [read_loop, Except.ok.injEq] at h
        subst h
        exact List.prefix_refl _
      · intro e h
        simp [read_loop] at h
    | error =>
      constructor
      · intro r h
        simp only [read_loop, Except.ok.injEq] at h
        subst h
        exact List.prefix_refl _
      · intro e h
        simp [read_loop] at h
    | data buffer =>
      rw [read_loop]
      simp only
      by_cases h0 : buffer.length = 0
      · rw [if_pos h0]
        constructor
        · intro r h
          simp only [Except.ok.injEq] at h
          subst h
          exact List.prefix_refl _
        · intro e h
          cases h
      · rw [if_neg h0]
        obtain ⟨sc1, sc2⟩ := scan_buffer_calls buffer buffer.length 0 0
          { s with reads := s.reads + 1 }
        cases hsc : scan_buffer buffer buffer.length 0 0 { s with reads := s.reads + 1 } with
        | error s1 =>
          constructor
          · intro r h
            cases h
          · intro e h
            simp only [Except.error.injEq] at h
            subst h
            exact sc2 _ hsc
        | ok r1 =>
          obtain ⟨start, s1⟩ := r1
          have h1 : s.L.calls <+: s1.L.calls := sc1 _ hsc
          simp only
          have hp := lua_push_calls s1.L (s1.overflow_count = 0)
            (buffer_slice buffer start (buffer.length - start))
          by_cases hst : start < buffer.length
          · rw [if_pos hst]
            by_cases hlim : s1.overflow_size + (buffer.length - start) ≥ READ_OVERFLOW_SIZE_LIMIT
            · rw [if_pos hlim]
              constructor
              · intro r h
                simp only [Except.ok.injEq] at h
                subst h
                simp only [hp]
                exact h1
              · intro e h
                cases h
            · rw [if_neg hlim]
              obtain ⟨ih1, ih2⟩ := ih
                { s1 with
                  L := lua_pushlstring
                    (if s1.overflow_count = 0 then lua_getglobal s1.L else s1.L)
                    (buffer_slice buffer start (buffer.length - start)),
                  overflow_size := s1.overflow_size + (buffer.length - start),
                  overflow_count := s1.overflow_count + 1,
                  peak := max s1.peak (s1.overflow_size + (buffer.length - start)) }
              simp only [hp] at ih1 ih2
              exact ⟨fun r h => h1.trans (ih1 r h), fun e h => h1.trans (ih2 e h)⟩
          · rw [if_neg hst]
            obtain ⟨ih1, ih2⟩ := ih s1
            exact ⟨fun r h => h1.trans (ih1 r h), fun e h => h1.trans (ih2 e h)⟩

theorem l_read_conn_end_calls (r : Except rd_state rd_state) :
    (∀ s, r = .ok s → s.L.calls <+: (l_read_conn_end r).L.calls) ∧
    (∀ s, r = .error s → s.L.calls <+: (l_read_conn_end r).L.calls) := by
  constructor
  · intro s h
    subst h
    simp only [l_read_conn_end]
    split
    · split
      · rename_i L1 h1
        exact lua_call_error_calls _ _ _ h1
      · rename_i L1 h1
        exact lua_call_ok_calls _ _ _ h1
    · exact List.prefix_refl _
  · intro s h
    subst h
    exact List.prefix_refl _

/-- The calls logged before a run of the loop and its end are a prefix of the calls
logged after it. -/
theorem read_loop_end_calls (events : List read_event) (s : rd_state) :
    s.L.calls <+: (l_read_conn_end (read_loop events s)).L.calls := by
  obtain ⟨h1, h2⟩ := read_loop_calls events s
  obtain ⟨h3, h4⟩ := l_read_conn_end_calls (read_loop events s)
  cases h : read_loop events s with
  | ok r => exact (h1 r h).trans (h ▸ h3 r h)
  | error e => exact (h2 e h).trans (h ▸ h4 e h)

/-! ### Chunks that end at a line boundary -/

theorem terminated_append (a b : List (List Char)) :
    terminated (a ++ b) = terminated a ++ terminated b := by
  simp [terminated]

/-- A non-empty chunk whose last byte is a newline is a sequence of complete lines. -/
theorem aligned_chunk (c : List Char) (h1 : c ≠ []) (h2 : c.getLast? = some '\n') :
    c = terminated (split_lines [] c).1 ∧ (split_lines [] c).1 ≠ [] ∧
      ∀ l ∈ (split_lines [] c).1, '\n' ∉ l := by
  obtain ⟨e, hl, hr⟩ := split_lines_spec [] c (by simp)
  simp only [List.nil_append] at e
  have hrem : (split_lines [] c).2 = [] := by
    by_contra hne
    have h3 : c.getLast? = (split_lines [] c).2.getLast? := by
      conv_lhs => rw [e]
      exact List.getLast?_append_of_ne_nil _ hne
    rw [h2] at h3
    exact hr (List.mem_of_getLast?_eq_some h3.symm)
  rw [hrem, List.append_nil] at e
  refine ⟨e, ?_, hl⟩
  intro hnil
  rw [hnil] at e
  exact h1 (by simpa [terminated] using e)

/-- The lines of a sequence of chunks that each end at a line boundary. -/
theorem aligned_chunks (cs : List (List Char))
    (h : ∀ c ∈ cs, c ≠ [] ∧ c.getLast? = some '\n') :
    cs.flatten = terminated (cs.map (fun c => (split_lines [] c).1)).flatten ∧
      ∀ l ∈ (cs.map (fun c => (split_lines [] c).1)).flatten, '\n' ∉ l := by
  induction cs with
  | nil => simp [terminated]
  | cons c cs ih =>
    obtain ⟨e, -, hl⟩ := aligned_chunk c (h c (by simp)).1 (h c (by simp)).2
    obtain ⟨e', hl'⟩ := ih (fun x hx => h x (by simp [hx]))
    constructor
    · simp only [List.flatten_cons, List.map_cons, terminated_append]
      rw [← e, ← e']
    · intro l hmem
      simp only [List.map_cons, List.flatten_cons, List.mem_append] at hmem
      rcases hmem with hmem | hmem
      · exact hl l hmem
      · exact hl' l hmem

/-- The decomposition of a byte sequence into newline-free lines and a newline-free
remainder is unique. -/
theorem terminated_unique (a b : List (List Char)) (ra rb : List Char)
    (ha : ∀ l ∈ a, '\n' ∉ l) (hb : ∀ l ∈ b, '\n' ∉ l) (hra : '\n' ∉ ra) (hrb : '\n' ∉ rb)
    (h : terminated a ++ ra = terminated b ++ rb) : a = b ∧ ra = rb := by
  have h1 := split_lines_terminated a ra ha hra
  have h2 := split_lines_terminated b rb hb hrb
  rw [h, h2] at h1
  simp only [Prod.mk.injEq] at h1
  exact ⟨h1.1.symm, h1.2.symm⟩

/-- The loop over chunks that each end at a line boundary, with nothing pending: one
`OnRead` call per line, and the loop goes on with nothing pending. -/
theorem read_loop_aligned (cs : List (List Char)) (rest : List read_event) (s : rd_state)
    (h : ∀ c ∈ cs, c ≠ [] ∧ c.getLast? = some '\n')
    (hc : s.overflow_count = 0) (hs : s.overflow_size = 0) :
    read_loop (cs.map read_event.data ++ rest) s =
      read_loop rest
        { s with L := { stack := s.L.stack,
                        calls := s.L.calls ++
                          ((cs.map (fun c => (split_lines [] c).1)).flatten).map onread_call },
                 reads := s.reads + cs.length } := by
  induction cs generalizing s with
  | nil =>
    obtain ⟨L, oc, os, r, p⟩ := s
    obtain ⟨st, cl⟩ := L
    simp
  | cons c cs ih =>
    obtain ⟨e, hne, hl⟩ := aligned_chunk c (h c (by simp)).1 (h c (by simp)).2
    have hstep := read_loop_lines (split_lines [] c).1 (cs.map read_event.data ++ rest) s
      hne hl hc hs
    rw [← e] at hstep
    simp only [List.map_cons, List.cons_append]
    rw [hstep, ih { s with L := { stack := s.L.stack,
                                   calls := s.L.calls ++ (split_lines [] c).1.map onread_call },
                             reads := s.reads + 1 } (fun x hx => h x (by simp [hx])) hc hs]
    simp only [List.flatten_cons, List.map_append, List.append_assoc, List.length_cons]
    congr 2
    omega

theorem l_read_conn_aligned (L : lua_State) (cs : List (List Char))
    (h : ∀ c ∈ cs, c ≠ [] ∧ c.getLast? = some '\n') :
    (l_read_conn L (cs.map read_event.data)).L =
      { stack := L.stack,
        calls := L.calls ++ ((cs.map (fun c => (split_lines [] c).1)).flatten).map onread_call } ∧
    (l_read_conn L (cs.map read_event.data)).panic = false := by
  have := read_loop_aligned cs []
    { L := L, overflow_count := 0, overflow_size := 0, reads := 0, peak := 0 } h rfl rfl
  simp only [List.append_nil] at this
  simp [l_read_conn, this, read_loop, l_read_conn_end]

theorem l_read_conn_repeat_aligned (L : lua_State) (invocations : List (List (List Char)))
    (h : ∀ inv ∈ invocations, ∀ c ∈ inv, c ≠ [] ∧ c.getLast? = some '\n') :
    l_read_conn_repeat L (invocations.map (fun inv => inv.map read_event.data)) =
      ({ stack := L.stack,
         calls := L.calls ++
           ((invocations.flatten.map (fun c => (split_lines [] c).1)).flatten).map onread_call },
        false) := by
  induction invocations generalizing L with
  | nil => simp [l_read_conn_repeat]
  | cons inv rest ih =>
    obtain ⟨h1, h2⟩ := l_read_conn_aligned L inv (h inv (by simp))
    simp only [List.map_cons, l_read_conn_repeat, h2, h1]
    rw [if_neg (by simp), ih _ (fun x hx => h x (by simp [hx]))]
    simp

/-! ### C4 and C5: framing -/

/-- C4, counterexample: the chunks "he" and "llo\n" read by two successive invocations
give two handler calls, `OnRead("he")` and `OnRead("llo")`, not the one call
`OnRead("hello")` that the single chunk "hello\n" gives. -/
theorem l_read_conn_split_write_differs :
    (l_read_conn_repeat { stack := [], calls := [] }
        [[.data ['h', 'e']], [.data ['l', 'l', 'o', '\n']]]).1.calls =
      [onread_call ['h', 'e'], onread_call ['l', 'l', 'o']] ∧
    (l_read_conn_repeat { stack := [], calls := [] }
        [[.data ['h', 'e', 'l', 'l', 'o', '\n']]]).1.calls =
      [onread_call ['h', 'e', 'l', 'l', 'o']] ∧
    (l_read_conn_repeat { stack := [], calls := [] }
        [[.data ['h', 'e']], [.data ['l', 'l', 'o', '\n']]]).1.calls ≠
      (l_read_conn_repeat { stack := [], calls := [] }
        [[.data ['h', 'e', 'l', 'l', 'o', '\n']]]).1.calls := by
  decide

/-- C4, amended: framing is independent of chunking at line boundaries.  For every byte
sequence made of the newline-free `lines`, each followed by a newline, and every way of
splitting it into non-empty chunks that each end with a newline, read within one
invocation or across several, the handler is called exactly once per line, the i-th call
with the i-th line as its single argument, in order; the Lua stack is left as it was and
no call aborts. -/
theorem l_read_conn_line_aligned_chunking (L : lua_State)
    (invocations : List (List (List Char))) (lines : List (List Char))
    (hchunk : ∀ inv ∈ invocations, ∀ c ∈ inv, c ≠ [] ∧ c.getLast? = some '\n')
    (hl : ∀ l ∈ lines, '\n' ∉ l)
    (hbytes : invocations.flatten.flatten = terminated lines) :
    l_read_conn_repeat L (invocations.map (fun inv => inv.map read_event.data)) =
      ({ stack := L.stack, calls := L.calls ++ lines.map onread_call }, false) := by
  have hall : ∀ c ∈ invocations.flatten, c ≠ [] ∧ c.getLast? = some '\n' := by
    intro c hc
    obtain ⟨inv, hinv, hci⟩ := List.mem_flatten.1 hc
    exact hchunk inv hinv c hci
  obtain ⟨e, hl'⟩ := aligned_chunks invocations.flatten hall
  rw [hbytes] at e
  have hu := terminated_unique lines _ [] [] hl hl' (by simp) (by simp) (by simpa using e)
  rw [l_read_conn_repeat_aligned L invocations hchunk, ← hu.1]

/-- Witness for C4 (amended): the bytes "a\nb\nc\n" read as the chunk "a\n" in one
invocation and the chunk "b\nc\n" in the next. -/
theorem l_read_conn_line_aligned_chunking_witness :
    l_read_conn_repeat { stack := [], calls := [] }
        ([[['a', '\n']], [['b', '\n', 'c', '\n']]].map (fun inv => inv.map read_event.data)) =
      ({ stack := [], calls := [] ++ [['a'], ['b'], ['c']].map onread_call }, false) :=
  l_read_conn_line_aligned_chunking { stack := [], calls := [] }
    [[['a', '\n']], [['b', '\n', 'c', '\n']]] [['a'], ['b'], ['c']]
    (by decide) (by decide) (by decide)

/-- C5: a chunk made of `k` newline-free lines, each followed by its newline, and a
newline-free remainder (so a chunk with exactly `k` newlines; every chunk is of this
form in exactly one way, `split_lines_spec` and `terminated_unique`), read first by an
invocation: the first `k` calls the invocation makes are calls of the handler with
exactly one argument, the i-th being the i-th line without its newline, in order,
whatever the socket delivers afterwards. -/
theorem l_read_conn_chunk_lines (L : lua_State) (lines : List (List Char))
    (rem : List Char) (rest : List read_event)
    (hl : ∀ l ∈ lines, '\n' ∉ l) (hr : '\n' ∉ rem) :
    ∃ later, (l_read_conn L (.data (terminated lines ++ rem) :: rest)).L.calls =
      L.calls ++ lines.map onread_call ++ later := by
  unfold l_read_conn
  by_cases hrem : rem = []
  · subst hrem
    by_cases hlines : lines = []
    · subst hlines
      obtain ⟨t, ht⟩ := read_loop_end_calls
        (.data (terminated [] ++ []) :: rest)
        { L := L, overflow_count := 0, overflow_size := 0, reads := 0, peak := 0 }
      exact ⟨t, by simpa using ht.symm⟩
    · rw [List.append_nil, read_loop_lines lines rest _ hlines hl rfl rfl]
      obtain ⟨t, ht⟩ := read_loop_end_calls rest
        { L := { stack := L.stack, calls := L.calls ++ lines.map onread_call },
          overflow_count := 0, overflow_size := 0, reads := 0 + 1, peak := 0 }
      exact ⟨t, ht.symm⟩
  · rw [read_loop_remainder lines rem rest _ hl hr hrem rfl rfl]
    split
    · obtain ⟨h1, -⟩ := l_read_conn_end_calls (.ok
        { L := { stack := lua_Value.str rem :: lua_Value.onread :: L.stack,
                 calls := L.calls ++ lines.map onread_call },
          overflow_count := 1, overflow_size := rem.length,
          reads := 0 + 1, peak := max 0 rem.length })
      obtain ⟨t, ht⟩ := h1 _ rfl
      exact ⟨t, ht.symm⟩
    · obtain ⟨t, ht⟩ := read_loop_end_calls rest
        { L := { stack := lua_Value.str rem :: lua_Value.onread :: L.stack,
                 calls := L.calls ++ lines.map onread_call },
          overflow_count := 1, overflow_size := rem.length,
          reads := 0 + 1, peak := max 0 rem.length }
      exact ⟨t, ht.symm⟩

/-- Witness for C5: the chunk "hello\n" followed by an empty line, "hello\n\n". -/
theorem l_read_conn_chunk_lines_witness :
    ∃ later, (l_read_conn { stack := [], calls := [] }
        (.data (terminated [['h', 'e', 'l', 'l', 'o'], []] ++ []) :: [])).L.calls =
      [] ++ [['h', 'e', 'l', 'l', 'o'], []].map onread_call ++ later :=
  l_read_conn_chunk_lines { stack := [], calls := [] } [['h', 'e', 'l', 'l', 'o'], []] [] []
    (by decide) (by decide)

/-! ### C6 and C7: pending fragments -/

/-- C6, the code at the failing input: the chunks "he" and "llo\n" read by one
invocation.  Both chunks are consumed, the only `lua_call` made has the fragment "he"
in function position with "llo" as its argument, the call aborts, and the handler is
never called: the bytes "hello\n" reach no handler call. -/
theorem l_read_conn_pending_fragment_lost :
    l_read_conn { stack := [], calls := [] } [.data ['h', 'e'], .data ['l', 'l', 'o', '\n']] =
      { L := { stack := [lua_Value.onread],
               calls := [{ callee := lua_Value.str ['h', 'e'],
                           args := [lua_Value.str ['l', 'l', 'o']] }] },
        locals := { L := { stack := [lua_Value.onread],
                           calls := [{ callee := lua_Value.str ['h', 'e'],
                                       args := [lua_Value.str ['l', 'l', 'o']] }] },
                    overflow_count := 1, overflow_size := 2, reads := 2, peak := 2 },
        panic := true } ∧
    (l_read_conn { stack := [], calls := [] }
        [.data ['h', 'e'], .data ['l', 'l', 'o', '\n']]).L.calls.filter
      (fun ev => decide (ev.callee = lua_Value.onread)) = [] := by
  decide

/-- A non-empty chunk without a newline: the scan finds nothing, the chunk is pushed as
one more pending fragment (above the handler when it is the first), and the loop is
left when the accumulated size has reached the limit. -/
theorem read_loop_fragment (c : List Char) (rest : List read_event) (s : rd_state)
    (hne : c ≠ []) (hc : '\n' ∉ c) :
    read_loop (.data c :: rest) s =
      if s.overflow_size + c.length ≥ READ_OVERFLOW_SIZE_LIMIT then
        .ok { L := lua_pushlstring (if s.overflow_count = 0 then lua_getglobal s.L else s.L) c,
              overflow_count := s.overflow_count + 1,
              overflow_size := s.overflow_size + c.length,
              reads := s.reads + 1, peak := max s.peak (s.overflow_size + c.length) }
      else
        read_loop rest
          { L := lua_pushlstring (if s.overflow_count = 0 then lua_getglobal s.L else s.L) c,
            overflow_count := s.overflow_count + 1,
            overflow_size := s.overflow_size + c.length,
            reads := s.reads + 1, peak := max s.peak (s.overflow_size + c.length) } := by
  have hpos : 0 < c.length := List.length_pos.2 hne
  have hskip : ∀ k, k < c.length → c.getD (0 + k) ' ' ≠ '\n' := by
    intro k hk
    rw [Nat.zero_add, List.getD_eq_getElem _ _ hk]
    intro e
    exact hc (e ▸ List.getElem_mem hk)
  have h := scan_buffer_skip c c.length 0 0 0 { s with reads := s.reads + 1 } hskip
  simp only [Nat.add_zero, Nat.zero_add, scan_buffer] at h
  rw [read_loop]
  simp only [h]
  rw [if_neg (by omega), if_pos hpos]
  simp [buffer_slice]

/-- The Lua stack while `frags` are pending above the handler, on top of `base`. -/
theorem lua_call_pending (frags : List (List Char)) (base : List lua_Value)
    (calls : List lua_call_event) :
    lua_call { stack := (frags.map lua_Value.str).reverse ++ lua_Value.onread :: base,
               calls := calls } frags.length =
      .ok { stack := base,
            calls := calls ++ [{ callee := lua_Value.onread,
                                 args := frags.map lua_Value.str }] } := by
  have hlen : ((frags.map lua_Value.str).reverse).length = frags.length := by simp
  unfold lua_call
  simp only
  rw [← hlen, List.drop_left, List.take_left]
  simp

/-- The loop over newline-free chunks while `frags` are pending (nothing is pending
when `frags` is empty). -/
theorem read_loop_fragments (chunks : List (List Char)) (rest : List read_event)
    (frags : List (List Char)) (s : rd_state) (base : List lua_Value)
    (hc : ∀ c ∈ chunks, c ≠ [] ∧ '\n' ∉ c)
    (hstack : s.L.stack = if frags = [] then base
      else (frags.map lua_Value.str).reverse ++ lua_Value.onread :: base)
    (hcount : s.overflow_count = frags.length)
    (hsize : s.overflow_size = (frags.map List.length).sum)
    (htotal : READ_OVERFLOW_SIZE_LIMIT ≤ s.overflow_size + (chunks.map List.length).sum)
    (hlt : s.overflow_size < READ_OVERFLOW_SIZE_LIMIT) :
    ∃ j s', 0 < j ∧ j ≤ chunks.length ∧
      READ_OVERFLOW_SIZE_LIMIT ≤ s.overflow_size + ((chunks.take j).map List.length).sum ∧
      (∀ i, i < j →
        s.overflow_size + ((chunks.take i).map List.length).sum < READ_OVERFLOW_SIZE_LIMIT) ∧
      read_loop (chunks.map read_event.data ++ rest) s = .ok s' ∧
      s'.L = { stack := ((frags ++ chunks.take j).map lua_Value.str).reverse ++
                 lua_Value.onread :: base,
               calls := s.L.calls } ∧
      s'.overflow_count = frags.length + j ∧ s'.reads = s.reads + j := by
  induction chunks generalizing frags s with
  | nil =>
    simp only [List.map_nil, List.sum_nil, Nat.add_zero] at htotal
    omega
  | cons c cs ih =>
    obtain ⟨hne, hnl⟩ := hc c (by simp)
    have hpush : lua_pushlstring (if s.overflow_count = 0 then lua_getglobal s.L else s.L) c =
        { stack := ((frags ++ [c]).map lua_Value.str).reverse ++ lua_Value.onread :: base,
          calls := s.L.calls } := by
      by_cases hf : frags = []
      · subst hf
        simp only [List.length_nil] at hcount
        simp [hcount, lua_pushlstring, lua_getglobal, hstack]
      · have : s.overflow_count ≠ 0 := by
          rw [hcount]
          exact fun e => hf (List.length_eq_zero.1 e)
        simp [this, lua_pushlstring, hstack, hf]
    simp only [List.map_cons, List.cons_append]
    rw [read_loop_fragment c _ s hne hnl, hpush]
    by_cases hlim : s.overflow_size + c.length ≥ READ_OVERFLOW_SIZE_LIMIT
    · rw [if_pos hlim]
      refine ⟨1, _, by omega, by simp, by simpa using hlim, ?_, rfl, by simp, by simp [hcount],
        rfl⟩
      intro i hi
      have : i = 0 := by omega
      subst this
      simpa using hlt
    · rw [if_neg hlim]
      obtain ⟨j, s', hj0, hj, h1, h2, h3, h4, h5, h6⟩ := ih (frags ++ [c])
        { L := { stack := ((frags ++ [c]).map lua_Value.str).reverse ++ lua_Value.onread :: base,
                 calls := s.L.calls },
          overflow_count := s.overflow_count + 1,
          overflow_size := s.overflow_size + c.length,
          reads := s.reads + 1, peak := max s.peak (s.overflow_size + c.length) }
        (fun x hx => hc x (by simp [hx]))
        (by simp)
        (by simp [hcount])
        (by simp [hsize])
        (by simp only [List.map_cons, List.sum_cons] at htotal; simp only; omega)
        (by simp only; omega)
      refine ⟨j + 1, s', by omega, by simp; omega, ?_, ?_, h3, ?_, ?_, ?_⟩
      · simp only [List.take_succ_cons, List.map_cons, List.sum_cons]
        simp only at h1
        omega
      · intro i hi
        cases i with
        | zero => simpa using hlt
        | succ i =>
          have := h2 i (by omega)
          simp only [List.take_succ_cons, List.map_cons, List.sum_cons]
          simp only at this
          omega
      · rw [h4]
        simp
      · rw [h5]
        simp
        omega
      · rw [h6]
        simp only
        omega

theorem l_read_conn_end_locals (s : rd_state) : (l_read_conn_end (.ok s)).locals = s := by
  simp only [l_read_conn_end]
  split
  · split <;> rfl
  · rfl

theorem l_read_conn_two_fragments (L : lua_State) (c1 c2 : List Char)
    (h1 : c1 ≠ []) (h1n : '\n' ∉ c1) (h2 : c2 ≠ []) (h2n : '\n' ∉ c2)
    (hlt : c1.length < READ_OVERFLOW_SIZE_LIMIT)
    (hge : READ_OVERFLOW_SIZE_LIMIT ≤ c1.length + c2.length) :
    (l_read_conn L [.data c1, .data c2]).locals.overflow_size = c1.length + c2.length := by
  unfold l_read_conn
  rw [read_loop_fragment _ _ _ h1 h1n, if_neg (by simp only; omega),
    read_loop_fragment _ _ _ h2 h2n, if_pos (by simp only; omega), l_read_conn_end_locals]
  simp

/-- The run on newline-free chunks whose total length reaches the limit, with the
stack taking every push: exactly the first `j` chunks are read, `j` being the first
index at which the accumulated length reaches the limit; when the loop is left the stack
holds the `j` fragments above the handler; the call after the loop is the only one, it
has the handler in function position and the fragments as arguments in read order. -/
theorem l_read_conn_fragments_pending (L : lua_State) (chunks : List (List Char))
    (rest : List read_event)
    (hc : ∀ c ∈ chunks, c ≠ [] ∧ '\n' ∉ c)
    (htotal : READ_OVERFLOW_SIZE_LIMIT ≤ (chunks.map List.length).sum) :
    ∃ j, j ≤ chunks.length ∧
      READ_OVERFLOW_SIZE_LIMIT ≤ ((chunks.take j).map List.length).sum ∧
      (∀ i, i < j → ((chunks.take i).map List.length).sum < READ_OVERFLOW_SIZE_LIMIT) ∧
      (l_read_conn L (chunks.map read_event.data ++ rest)).locals.reads = j ∧
      (l_read_conn L (chunks.map read_event.data ++ rest)).locals.L.stack =
        ((chunks.take j).map lua_Value.str).reverse ++ lua_Value.onread :: L.stack ∧
      (l_read_conn L (chunks.map read_event.data ++ rest)).L =
        { stack := L.stack,
          calls := L.calls ++ [{ callee := lua_Value.onread,
                                 args := (chunks.take j).map lua_Value.str }] } ∧
      (l_read_conn L (chunks.map read_event.data ++ rest)).panic = false := by
  obtain ⟨j, s', hj0, hj, h1, h2, h3, h4, h5, h6⟩ := read_loop_fragments chunks rest []
    { L := L, overflow_count := 0, overflow_size := 0, reads := 0, peak := 0 } L.stack hc
    (by simp) rfl (by simp) (by simpa using htotal) (by simp [READ_OVERFLOW_SIZE_LIMIT])
  simp only [Nat.zero_add, List.nil_append, List.length_nil] at h1 h2 h4 h5 h6
  refine ⟨j, hj, h1, h2, ?_⟩
  have hcall := lua_call_pending (chunks.take j) L.stack L.calls
  have hlen : (chunks.take j).length = j := by simp [hj]
  rw [hlen] at hcall
  have hs'L : s'.L = { stack := ((chunks.take j).map lua_Value.str).reverse ++
      lua_Value.onread :: L.stack, calls := L.calls } := h4
  unfold l_read_conn
  rw [h3, l_read_conn_end_locals]
  refine ⟨h6, by rw [hs'L], ?_⟩
  have hne : s'.overflow_count ≠ 0 := by omega
  simp only [l_read_conn_end, hne, ne_eq, not_false_eq_true, if_true, h5, hs'L, hcall]
  have hj' : ¬ j = 0 := by omega
  rw [if_pos hj']
  exact ⟨rfl, rfl⟩

/-- The overflow policy within the slots that the Lua API guarantees: for every sequence
of fewer than `LUA_MINSTACK` non-empty, newline-free chunks whose total length is at
least `READ_OVERFLOW_SIZE_LIMIT`, whatever the socket would deliver after them, an
invocation reads exactly the first `j` chunks, `j` being the first index at which the
accumulated length reaches the limit; the stack then holds at most `LUA_MINSTACK` slots
more than at the start; the handler is called exactly once, with the `j` fragments read
as its arguments in read order; the Lua stack is left as it was found and nothing
aborts. -/
theorem l_read_conn_overflow_once (L : lua_State) (chunks : List (List Char))
    (rest : List read_event)
    (hc : ∀ c ∈ chunks, c ≠ [] ∧ '\n' ∉ c)
    (hroom : chunks.length < LUA_MINSTACK)
    (htotal : READ_OVERFLOW_SIZE_LIMIT ≤ (chunks.map List.length).sum) :
    ∃ j, j ≤ chunks.length ∧
      READ_OVERFLOW_SIZE_LIMIT ≤ ((chunks.take j).map List.length).sum ∧
      (∀ i, i < j → ((chunks.take i).map List.length).sum < READ_OVERFLOW_SIZE_LIMIT) ∧
      (l_read_conn L (chunks.map read_event.data ++ rest)).locals.reads = j ∧
      (l_read_conn L (chunks.map read_event.data ++ rest)).locals.L.stack.length ≤
        L.stack.length + LUA_MINSTACK ∧
      (l_read_conn L (chunks.map read_event.data ++ rest)).L =
        { stack := L.stack,
          calls := L.calls ++ [{ callee := lua_Value.onread,
                                 args := (chunks.take j).map lua_Value.str }] } ∧
      (l_read_conn L (chunks.map read_event.data ++ rest)).panic = false := by
  obtain ⟨j, hj, h1, h2, h3, h4, h5, h6⟩ := l_read_conn_fragments_pending L chunks rest hc htotal
  refine ⟨j, hj, h1, h2, h3, ?_, h5, h6⟩
  rw [h4]
  simp only [List.length_append, List.length_reverse, List.length_map, List.length_take,
    List.length_cons]
  omega

/-- An instance of `l_read_conn_overflow_once`: a fragment of 4097 bytes, then two
fragments of one byte; the limit is reached with the second chunk and the third is not
read. -/
theorem l_read_conn_overflow_once_witness :
    ∃ j, j ≤ [List.replicate 4097 'x', ['y'], ['z']].length ∧
      READ_OVERFLOW_SIZE_LIMIT ≤
        (([List.replicate 4097 'x', ['y'], ['z']].take j).map List.length).sum ∧
      (∀ i, i < j → (([List.replicate 4097 'x', ['y'], ['z']].take i).map List.length).sum
        < READ_OVERFLOW_SIZE_LIMIT) ∧
      (l_read_conn { stack := [], calls := [] }
        ([List.replicate 4097 'x', ['y'], ['z']].map read_event.data ++ [])).locals.reads = j ∧
      (l_read_conn { stack := [], calls := [] }
        ([List.replicate 4097 'x', ['y'], ['z']].map read_event.data ++
          [])).locals.L.stack.length ≤
        ({ stack := [], calls := [] } : lua_State).stack.length + LUA_MINSTACK ∧
      (l_read_conn { stack := [], calls := [] }
        ([List.replicate 4097 'x', ['y'], ['z']].map read_event.data ++ [])).L =
        { stack := [],
          calls := [] ++ [{ callee := lua_Value.onread,
                            args := ([List.replicate 4097 'x', ['y'], ['z']].take j).map
                              lua_Value.str }] } ∧
      (l_read_conn { stack := [], calls := [] }
        ([List.replicate 4097 'x', ['y'], ['z']].map read_event.data ++ [])).panic = false :=
  l_read_conn_overflow_once { stack := [], calls := [] }
    [List.replicate 4097 'x', ['y'], ['z']] []
    (by
      intro c hmem
      simp only [List.mem_cons, List.mem_singleton, List.not_mem_nil, or_false] at hmem
      rcases hmem with rfl | rfl | rfl
      · refine ⟨fun e => ?_, fun hm => absurd (List.eq_of_mem_replicate hm) (by decide)⟩
        have hlen := congrArg List.length e
        rw [List.length_replicate] at hlen
        exact absurd hlen (by decide)
      · decide
      · decide)
    (by decide)
    (by
      simp only [List.map_cons, List.map_nil, List.sum_cons, List.sum_nil,
        List.length_replicate, List.length_cons, List.length_nil, READ_OVERFLOW_SIZE_LIMIT]
      decide)

/-- The accumulated length of the first `i` of `n` chunks of one byte. -/
theorem unit_chunks_length (n i : Nat) :
    (((List.replicate n ['x']).take i).map List.length).sum = min i n := by
  rw [List.take_replicate, List.map_replicate, List.sum_replicate]
  simp

/-- The run on `n` chunks of one byte "x", `n` at least the limit: the chunk that
reaches the limit is the 4098th, and when the loop is left the stack holds 4098
fragments and the handler above what it held at the start. -/
theorem l_read_conn_unit_fragments (L : lua_State) (n : Nat)
    (hn : READ_OVERFLOW_SIZE_LIMIT ≤ n) :
    (l_read_conn L ((List.replicate n ['x']).map read_event.data)).locals.reads =
      READ_OVERFLOW_SIZE_LIMIT ∧
    (l_read_conn L ((List.replicate n ['x']).map read_event.data)).locals.L.stack.length =
      READ_OVERFLOW_SIZE_LIMIT + 1 + L.stack.length := by
  obtain ⟨j, hj, h1, h2, h3, h4, -, -⟩ := l_read_conn_fragments_pending L
    (List.replicate n ['x']) []
    (fun c hmem => by
      rw [List.eq_of_mem_replicate hmem]
      decide)
    (by
      have := unit_chunks_length n n
      rw [List.take_of_length_le (by rw [List.length_replicate])] at this
      rw [this]
      simpa using hn)
  rw [List.append_nil] at h3 h4
  rw [List.length_replicate] at hj
  rw [unit_chunks_length] at h1
  have hge : READ_OVERFLOW_SIZE_LIMIT ≤ j := le_trans h1 (Nat.min_le_left _ _)
  have hle : j ≤ READ_OVERFLOW_SIZE_LIMIT := by
    by_contra hgt
    have := h2 READ_OVERFLOW_SIZE_LIMIT (by omega)
    rw [unit_chunks_length, Nat.min_eq_left hn] at this
    exact Nat.lt_irrefl _ this
  have hjeq : j = READ_OVERFLOW_SIZE_LIMIT := Nat.le_antisymm hle hge
  refine ⟨by rw [h3, hjeq], ?_⟩
  rw [h4]
  simp only [List.length_append, List.length_reverse, List.length_map, List.length_take,
    List.length_replicate, List.length_cons]
  omega

/-- C9, the code at the failing input: 4098 chunks of one byte "x", non-empty,
newline-free and of total length `READ_OVERFLOW_SIZE_LIMIT`, read by an invocation that
starts on an empty Lua stack with no pending fragment.  Every chunk is pushed as one
more fragment and stays on the Lua stack; the limit is reached with the 4098th chunk,
and when the loop is left the code has pushed 4099 values, the handler and 4098
fragments, without a `lua_checkstack`, where `LUA_MINSTACK` = 20 slots are guaranteed:
from the twentieth fragment on, the pushes write beyond the Lua stack, and what the
process does from there on is not a single handler call determined by the chunks. -/
theorem l_read_conn_fragments_overrun_stack :
    (∀ c ∈ List.replicate 4098 ['x'], c ≠ [] ∧ '\n' ∉ c) ∧
    READ_OVERFLOW_SIZE_LIMIT ≤ ((List.replicate 4098 ['x']).map List.length).sum ∧
    (l_read_conn { stack := [], calls := [] }
      ((List.replicate 4098 ['x']).map read_event.data)).locals.reads = 4098 ∧
    (l_read_conn { stack := [], calls := [] }
      ((List.replicate 4098 ['x']).map read_event.data)).locals.L.stack.length = 4099 ∧
    LUA_MINSTACK <
      (l_read_conn { stack := [], calls := [] }
        ((List.replicate 4098 ['x']).map read_event.data)).locals.L.stack.length := by
  have h := l_read_conn_unit_fragments { stack := [], calls := [] } 4098 (Nat.le_refl _)
  have hlen : (l_read_conn { stack := [], calls := [] }
      ((List.replicate 4098 ['x']).map read_event.data)).locals.L.stack.length = 4099 :=
    h.2
  refine ⟨fun c hmem => ?_, ?_, h.1, hlen, ?_⟩
  · rw [List.eq_of_mem_replicate hmem]
    decide
  · rw [List.map_replicate, List.sum_replicate]
    decide
  · rw [hlen]
    decide

theorem scan_buffer_sizes (buffer : List Char) (n i start : Nat) (s : rd_state) :
    (∀ r, scan_buffer buffer n i start s = .ok r →
      r.2.overflow_size ≤ s.overflow_size ∧ r.2.peak = s.peak) ∧
    (∀ e, scan_buffer buffer n i start s = .error e →
      e.overflow_size ≤ s.overflow_size ∧ e.peak = s.peak) := by
  induction n generalizing i start s with
  | zero =>
    constructor
    · intro r h
      simp only [scan_buffer, Except.ok.injEq] at h
      subst h
      exact ⟨Nat.le_refl _, rfl⟩
    · intro e h
      simp [scan_buffer] at h
  | succ n ih =>
    rw [scan_buffer]
    by_cases hnl : buffer.getD i ' ' ≠ '\n'
    · rw [if_pos hnl]
      exact ih _ _ _
    · rw [if_neg hnl]
      cases hc : lua_call (lua_pushlstring (if s.overflow_count = 0 then lua_getglobal s.L else s.L)
          (buffer_slice buffer start (i - start))) 1 with
      | error L3 =>
        simp only [hc]
        constructor
        · intro r h
          cases h
        · intro e h
          simp only [Except.error.injEq] at h
          subst h
          exact ⟨Nat.le_refl _, rfl⟩
      | ok L3 =>
        simp only [hc]
        obtain ⟨ih1, ih2⟩ := ih (i + 1) (i + 1)
          { s with L := L3, overflow_count := 0, overflow_size := 0 }
        constructor
        · intro r h
          obtain ⟨a, b⟩ := ih1 r h
          simp only at a b
          exact ⟨by omega, b⟩
        · intro e h
          obtain ⟨a, b⟩ := ih2 e h
          simp only at a b
          exact ⟨by omega, b⟩

theorem read_loop_sizes (events : List read_event) (s : rd_state)
    (hb : ∀ b, read_event.data b ∈ events → b.length ≤ READ_BUFFER_SIZE)
    (h1 : s.overflow_size < READ_OVERFLOW_SIZE_LIMIT) (h2 : s.overflow_size ≤ s.peak)
    (h3 : s.peak ≤ READ_OVERFLOW_SIZE_LIMIT + READ_BUFFER_SIZE - 1) :
    (∀ r, read_loop events s = .ok r →
      r.overflow_size ≤ r.peak ∧ r.peak ≤ READ_OVERFLOW_SIZE_LIMIT + READ_BUFFER_SIZE - 1) ∧
    (∀ e, read_loop events s = .error e →
      e.overflow_size ≤ e.peak ∧ e.peak ≤ READ_OVERFLOW_SIZE_LIMIT + READ_BUFFER_SIZE - 1) := by
  induction events generalizing s with
  | nil =>
    constructor
    · intro r h
      simp only [read_loop, Except.ok.injEq] at h
      subst h
      exact ⟨h2, h3⟩
    · intro e h
      simp [read_loop] at h
  | cons ev rest ih =>
    have hb' : ∀ b, read_event.data b ∈ rest → b.length ≤ READ_BUFFER_SIZE :=
      fun b hmem => hb b (List.mem_cons_of_mem _ hmem)
    cases ev with
    | idle =>
      constructor
      · intro r h
        simp only [read_loop, Except.ok.injEq] at h
        subst h
        exact ⟨h2, h3⟩
      · intro e h
        simp [read_loop] at h
    | error =>
      constructor
      · intro r h
        simp only [read_loop, Except.ok.injEq] at h
        subst h
        exact ⟨h2, h3⟩
      · intro e h
        simp [read_loop] at h
    | data buffer =>
      have hlen : buffer.length ≤ READ_BUFFER_SIZE := hb buffer (by simp)
      rw [read_loop]
      simp only
      by_cases h0 : buffer.length = 0
      · rw [if_pos h0]
        constructor
        · intro r h
          simp only [Except.ok.injEq] at h
          subst h
          exact ⟨h2, h3⟩
        · intro e h
          cases h
      · rw [if_neg h0]
        obtain ⟨sc1, sc2⟩ := scan_buffer_sizes buffer buffer.length 0 0
          { s with reads := s.reads + 1 }
        cases hsc : scan_buffer buffer buffer.length 0 0 { s with reads := s.reads + 1 } with
        | error s1 =>
          simp only
          obtain ⟨a, b⟩ := sc2 _ hsc
          simp only at a b
          constructor
          · intro r h
            cases h
          · intro e h
            simp only [Except.error.injEq] at h
            subst h
            exact ⟨by omega, by omega⟩
        | ok r1 =>
          obtain ⟨start, s1⟩ := r1
          obtain ⟨a, b⟩ := sc1 _ hsc
          simp only at a b
          simp only
          by_cases hst : start < buffer.length
          · rw [if_pos hst]
            have hsz : s1.overflow_size + (buffer.length - start) ≤
                READ_OVERFLOW_SIZE_LIMIT + READ_BUFFER_SIZE - 1 := by omega
            by_cases hlim : s1.overflow_size + (buffer.length - start) ≥ READ_OVERFLOW_SIZE_LIMIT
            · rw [if_pos hlim]
              constructor
              · intro r h
                simp only [Except.ok.injEq] at h
                subst h
                exact ⟨Nat.le_max_right _ _, Nat.max_le.2 ⟨by omega, hsz⟩⟩
              · intro e h
                cases h
            · rw [if_neg hlim]
              exact ih _ hb' (by simp only; omega) (Nat.le_max_right _ _)
                (Nat.max_le.2 ⟨by omega, hsz⟩)
          · rw [if_neg hst]
            exact ih s1 hb' (by omega) (by omega) (by omega)

/-- C8, the code at the failing input: a chunk of 4097 bytes and a chunk of 4098 bytes,
both without a newline and each within `READ_BUFFER_SIZE`.  After the first chunk
`overflow_size` is 4097, below the limit, so the loop goes on; the second chunk is added
before `overflow_size >= READ_OVERFLOW_SIZE_LIMIT` is tested, and `overflow_size` is
8195, above `READ_OVERFLOW_SIZE_LIMIT`, the "maximum socket line length". -/
theorem overflow_size_exceeds_limit :
    (List.replicate 4097 'a').length ≤ READ_BUFFER_SIZE ∧
    (List.replicate 4098 'a').length ≤ READ_BUFFER_SIZE ∧
    (l_read_conn { stack := [], calls := [] }
      [.data (List.replicate 4097 'a'), .data (List.replicate 4098 'a')]).locals.overflow_size
      = 8195 ∧
    READ_OVERFLOW_SIZE_LIMIT <
      (l_read_conn { stack := [], calls := [] }
        [.data (List.replicate 4097 'a'),
          .data (List.replicate 4098 'a')]).locals.overflow_size := by
  have hne : ∀ n, 0 < n → List.replicate n 'a' ≠ [] := by
    intro n hn e
    have := congrArg List.length e
    rw [List.length_replicate, List.length_nil] at this
    omega
  have hnl : ∀ n, '\n' ∉ List.replicate n 'a' :=
    fun n hm => absurd (List.eq_of_mem_replicate hm) (by decide)
  have hval : (l_read_conn { stack := [], calls := [] }
      [.data (List.replicate 4097 'a'),
        .data (List.replicate 4098 'a')]).locals.overflow_size = 8195 := by
    rw [l_read_conn_two_fragments _ _ _ (hne 4097 (by decide)) (hnl 4097)
      (hne 4098 (by decide)) (hnl 4098)
      (by rw [List.length_replicate]; decide)
      (by rw [List.length_replicate, List.length_replicate]; decide),
      List.length_replicate, List.length_replicate]
  refine ⟨?_, ?_, hval, ?_⟩
  · rw [List.length_replicate]; decide
  · rw [List.length_replicate]; decide
  · rw [hval]; decide

/-- How far `overflow_size` goes: for every sequence of events whose chunks are each at
most `READ_BUFFER_SIZE` bytes, its value when the loop is left is at most the largest
value it was ever assigned, and that is at most
`READ_OVERFLOW_SIZE_LIMIT + READ_BUFFER_SIZE - 1` (8195), a value that chunks of 4097 and
4098 bytes reach. -/
theorem l_read_conn_overflow_bound (L : lua_State) (events : List read_event)
    (hb : ∀ b, read_event.data b ∈ events → b.length ≤ READ_BUFFER_SIZE) :
    (l_read_conn L events).locals.overflow_size ≤ (l_read_conn L events).locals.peak ∧
    (l_read_conn L events).locals.peak ≤ READ_OVERFLOW_SIZE_LIMIT + READ_BUFFER_SIZE - 1 := by
  obtain ⟨h1, h2⟩ := read_loop_sizes events
    { L := L, overflow_count := 0, overflow_size := 0, reads := 0, peak := 0 } hb
    (by simp [READ_OVERFLOW_SIZE_LIMIT]) (Nat.le_refl _) (Nat.zero_le _)
  unfold l_read_conn
  cases h : read_loop events
      { L := L, overflow_count := 0, overflow_size := 0, reads := 0, peak := 0 } with
  | error e => exact h2 e h
  | ok r =>
    rw [l_read_conn_end_locals]
    exact h1 r h

/-! ### Lemmas on the heap -/

namespace Mem

theorem store_same (h : Nat → Option node_t) (p : Nat) (n : Option node_t) :
    store h p n p = n := by
  simp [store]

theorem store_other (h : Nat → Option node_t) (p x : Nat) (n : Option node_t) (hx : x ≠ p) :
    store h p n x = h x := by
  simp [store, hx]

/-- A chain does not depend on the heap outside its own nodes. -/
theorem chain_frame (h h' : Nat → Option node_t) (p : Nat) (nodes : List (Nat × conn_entry))
    (hc : chain h p nodes) (hf : ∀ a ∈ nodes.map Prod.fst, h' a = h a) :
    chain h' p nodes := by
  induction nodes generalizing p with
  | nil => exact hc
  | cons n rest ih =>
    obtain ⟨h1, h2, nx, h3, h4⟩ := hc
    refine ⟨h1, h2, nx, ?_, ih nx h4 (fun a ha => hf a (by simp at ha ⊢; exact Or.inr ha))⟩
    rw [hf n.1 (by simp)]
    exact h3

/-- The pointer a chain starts at is determined by its nodes. -/
theorem chain_start_eq (h h' : Nat → Option node_t) (p q : Nat)
    (nodes : List (Nat × conn_entry)) (hp : chain h p nodes) (hq : chain h' q nodes) :
    p = q := by
  cases nodes with
  | nil =>
    simp only [chain] at hp hq
    rw [hp, hq]
  | cons n rest =>
    obtain ⟨h1, -⟩ := hp
    obtain ⟨h2, -⟩ := hq
    rw [h1, h2]

/-- The part of a chain after its first nodes is a chain. -/
theorem chain_suffix (h : Nat → Option node_t) (p : Nat) (front back : List (Nat × conn_entry))
    (hc : chain h p (front ++ back)) : ∃ q, chain h q back := by
  induction front generalizing p with
  | nil => exact ⟨p, hc⟩
  | cons n rest ih =>
    obtain ⟨-, -, nx, -, h4⟩ := hc
    exact ih nx h4

theorem split_first (v : Int) (l : List (Nat × conn_entry)) (h : ∃ n ∈ l, n.2.value = v) :
    ∃ pre x post, l = pre ++ x :: post ∧ x.2.value = v ∧ ∀ n ∈ pre, n.2.value ≠ v := by
  induction l with
  | nil =>
    obtain ⟨n, hn, -⟩ := h
    cases hn
  | cons y rest ih =>
    by_cases hy : y.2.value = v
    · exact ⟨[], y, rest, rfl, hy, by simp⟩
    · obtain ⟨n, hn, hv⟩ := h
      have hrest : ∃ n ∈ rest, n.2.value = v := by
        rcases List.mem_cons.1 hn with rfl | hn
        · exact absurd hv hy
        · exact ⟨n, hn, hv⟩
      obtain ⟨pre, x, post, e, hx, hpre⟩ := ih hrest
      refine ⟨y :: pre, x, post, by simp [e], hx, ?_⟩
      intro n hn
      rcases List.mem_cons.1 hn with rfl | hn
      · exact hy
      · exact hpre n hn

theorem visits_append (a b : List pass_event) : visits (a ++ b) = visits a ++ visits b := by
  induction a with
  | nil => rfl
  | cons e rest ih =>
    cases e <;> simp [visits, ih]

/-- The loop of `ll_conn_remove` started at `iter`, when the first node with the value
sought is `(a, e)`, after the nodes `pre`. -/
theorem ll_conn_remove_loop_found (list : Nat) (v : Int) (a : Nat) (e : conn_entry)
    (post : List (Nat × conn_entry)) (hv : e.value = v)
    (pre : List (Nat × conn_entry)) (fuel : Nat) (m : memory) (iter : Nat) (it : node_t)
    (h1 : m.heap iter = some it)
    (h2 : chain m.heap it.next (pre ++ (a, e) :: post))
    (h3 : (iter :: (pre ++ (a, e) :: post).map Prod.fst).Nodup)
    (h4 : list = iter ∨
      (list ∉ iter :: (pre ++ (a, e) :: post).map Prod.fst ∧ ∃ l, m.heap list = some l))
    (hpre : ∀ n ∈ pre, n.2.value ≠ v) (hfuel : pre.length < fuel) :
    ∃ m', ll_conn_remove_loop list v fuel m iter = .ok (1, m') ∧
      m'.closed = m.closed ++ [e.state] ∧ m'.freed = m.freed ++ [a] ∧
      m'.heap a = none ∧
      (∃ it', m'.heap iter = some it' ∧ chain m'.heap it'.next (pre ++ post) ∧
        it'.state = it.state ∧ (list ≠ iter → it'.value = it.value) ∧
        (list = iter → it'.value = wrap32 (it.value - 1))) ∧
      (∀ x, x ≠ list → x ∉ iter :: (pre ++ [(a, e)]).map Prod.fst → m'.heap x = m.heap x) ∧
      (list ≠ iter → ∀ l, m.heap list = some l →
        m'.heap list = some { l with value := wrap32 (l.value - 1) }) := by
  induction pre generalizing fuel m iter it with
  | nil =>
    obtain ⟨hnext, ha0, nx, hha, hpost⟩ := h2
    simp only at hnext ha0 hha
    simp only [List.nil_append, List.map_cons, List.nodup_cons, List.mem_cons, not_or] at h3
    obtain ⟨⟨hia, hipost⟩, hapost, hnd⟩ := h3
    have hnext0 : it.next ≠ 0 := by rw [hnext]; exact ha0
    cases fuel with
    | zero => exact absurd hfuel (Nat.lt_irrefl _)
    | succ f =>
      rcases h4 with hli | ⟨hl, l, hl'⟩
      · subst hli
        have hload : store (store m.heap list (some { it with next := nx })) a none list =
            some { it with next := nx } := by
          simp [store, hia]
        refine ⟨memory.mk (store (store (store m.heap list (some { it with next := nx })) a none)
          list (some { next := nx, value := wrap32 (it.value - 1), state := it.state }))
          (m.closed ++ [e.state]) (m.freed ++ [a]), ?_, rfl, rfl, ?_, ?_, ?_, ?_⟩
        · simp only [ll_conn_remove_loop, load, h1, hnext0, if_false, hnext, hha, hv, if_true,
            hload, ha0]
        · simp [store, Ne.symm hia]
        · refine ⟨_, store_same _ _ _, ?_, rfl, fun hne => absurd rfl hne, fun _ => rfl⟩
          refine chain_frame m.heap _ nx post hpost ?_
          intro x hx
          have hxi : x ≠ list := fun e' => hipost (e' ▸ hx)
          have hxa : x ≠ a := fun e' => hapost (e' ▸ hx)
          simp [store, hxi, hxa]
        · intro x hx hx'
          simp only [List.nil_append, List.map_cons, List.map_nil, List.mem_cons,
            List.mem_singleton, List.not_mem_nil, or_false, not_or] at hx'
          simp [store, hx, hx'.2]
        · intro hne
          exact absurd rfl hne
      · simp only [List.nil_append, List.map_cons, List.mem_cons, not_or] at hl
        obtain ⟨hli, hla, hlpost⟩ := hl
        have hload : store (store m.heap iter (some { it with next := nx })) a none list =
            some l := by
          simp [store, hli, hla, hl']
        refine ⟨memory.mk (store (store (store m.heap iter (some { it with next := nx })) a none)
          list (some { l with value := wrap32 (l.value - 1) }))
          (m.closed ++ [e.state]) (m.freed ++ [a]), ?_, rfl, rfl, ?_, ?_, ?_, ?_⟩
        · simp only [ll_conn_remove_loop, load, h1, hnext0, if_false, hnext, hha, hv, if_true,
            hload, ha0]
        · simp [store, Ne.symm hla]
        · refine ⟨{ it with next := nx }, ?_, ?_, rfl, fun _ => rfl,
            fun heq => absurd heq hli⟩
          · simp [store, Ne.symm hli, hia]
          · refine chain_frame m.heap _ nx post hpost ?_
            intro x hx
            have hxi : x ≠ iter := fun e' => hipost (e' ▸ hx)
            have hxa : x ≠ a := fun e' => hapost (e' ▸ hx)
            have hxl : x ≠ list := fun e' => hlpost (e' ▸ hx)
            simp [store, hxi, hxa, hxl]
        · intro x hx hx'
          simp only [List.nil_append, List.map_cons, List.map_nil, List.mem_cons,
            List.mem_singleton, List.not_mem_nil, or_false, not_or] at hx'
          simp [store, hx, hx'.1, hx'.2]
        · intro _ l0 hl0
          rw [hl'] at hl0
          cases hl0
          simp [store]
  | cons b pre ih =>
    obtain ⟨hnext, hb0, nb, hhb, hrest⟩ := h2
    have hbv : b.2.value ≠ v := hpre b (by simp)
    have hnext0 : it.next ≠ 0 := by rw [hnext]; exact hb0
    simp only [List.cons_append, List.map_cons, List.nodup_cons, List.mem_cons, not_or] at h3
    obtain ⟨⟨hib, hirest⟩, hnd⟩ := h3
    cases fuel with
    | zero => exact absurd hfuel (Nat.not_lt_zero _)
    | succ f =>
      have hlist' : list = b.1 ∨
          (list ∉ b.1 :: (pre ++ (a, e) :: post).map Prod.fst ∧ ∃ l, m.heap list = some l) := by
        right
        rcases h4 with hli | ⟨hl, l, hl'⟩
        · subst hli
          exact ⟨by simp only [List.mem_cons, not_or]; exact ⟨hib, hirest⟩, it, h1⟩
        · refine ⟨?_, l, hl'⟩
          intro hmem
          exact hl (by simp only [List.cons_append, List.map_cons]; exact List.mem_cons_of_mem _ hmem)
      have hlb : list ≠ b.1 := by
        rcases hlist' with hli | ⟨hl, -⟩
        · rcases h4 with h | ⟨h, -⟩
          · exact fun _ => hib (h ▸ hli)
          · exact fun heq => h (by simp [heq])
        · exact fun heq => hl (by simp [heq])
      obtain ⟨m', hrun, hcl, hfr, hfree, ⟨bn', hbn', hchain', hst', hval', -⟩, hframe, hlistv⟩ :=
        ih f m b.1 { next := nb, value := b.2.value, state := b.2.state } hhb hrest
          (by simp only [List.nodup_cons, List.map_cons]; exact hnd) hlist'
          (fun n hn => hpre n (List.mem_cons_of_mem _ hn))
          (by simp only [List.length_cons] at hfuel; omega)
      have hchainb : chain m'.heap b.1 (b :: (pre ++ post)) := by
        refine ⟨rfl, hb0, bn'.next, ?_, hchain'⟩
        rw [hbn']
        have e1 := hval' hlb
        simp only at e1 hst'
        rw [← e1, ← hst']
      refine ⟨m', ?_, hcl, hfr, hfree, ?_, ?_, ?_⟩
      · simp only [ll_conn_remove_loop, load, h1, hnext0, if_false, hnext, hhb, hbv]
        rw [if_neg hb0]
        exact hrun
      · by_cases hli : list = iter
        · subst hli
          have := hlistv hlb it h1
          refine ⟨_, this, ?_, rfl, fun hne => absurd rfl hne, fun _ => rfl⟩
          simp only [hnext]
          exact hchainb
        · have hkeep : m'.heap iter = m.heap iter := by
            refine hframe iter (fun heq => hli heq.symm) ?_
            simp only [List.mem_cons, not_or]
            refine ⟨hib, ?_⟩
            intro hmem
            apply hirest
            simp only [List.map_append, List.mem_append, List.map_cons, List.map_nil,
              List.mem_singleton, List.mem_cons, List.not_mem_nil, or_false] at hmem ⊢
            rcases hmem with h | h
            · exact Or.inl h
            · exact Or.inr (Or.inl h)
          refine ⟨it, by rw [hkeep, h1], ?_, rfl, fun _ => rfl, fun heq => absurd heq hli⟩
          rw [hnext]
          exact hchainb
      · intro x hx hx'
        refine hframe x hx ?_
        intro hmem
        apply hx'
        simp only [List.cons_append, List.map_cons, List.mem_cons] at hmem ⊢
        rcases hmem with h | h
        · exact Or.inr (Or.inl h)
        · exact Or.inr (Or.inr h)
      · intro hli l hl
        exact hlistv hlb l hl

/-- `ll_conn_remove` on a heap that holds a list: the first node with the value sought,
`(a, e)`, is unlinked and freed, its state is closed, and the heap holds the list of the
remaining nodes. -/
theorem ll_conn_remove_found (m : memory) (list : Nat) (v : Int)
    (pre : List (Nat × conn_entry)) (a : Nat) (e : conn_entry)
    (post : List (Nat × conn_entry)) (fuel : Nat)
    (hlist : is_list m.heap list (pre ++ (a, e) :: post)) (hv : e.value = v)
    (hpre : ∀ n ∈ pre, n.2.value ≠ v) (hfuel : pre.length < fuel) :
    ∃ m', ll_conn_remove fuel m list v = .ok (1, m') ∧ is_list m'.heap list (pre ++ post) ∧
      m'.closed = m.closed ++ [e.state] ∧ m'.freed = m.freed ++ [a] ∧ m'.heap a = none := by
  obtain ⟨⟨sentinel, hs, hchain⟩, hnd⟩ := hlist
  obtain ⟨m', hrun, hcl, hfr, hfree, ⟨it', hit', hchain', -⟩, -, -⟩ :=
    ll_conn_remove_loop_found list v a e post hv pre fuel m list sentinel hs hchain hnd
      (Or.inl rfl) hpre hfuel
  refine ⟨m', hrun, ⟨⟨it', hit', hchain'⟩, ?_⟩, hcl, hfr, hfree⟩
  refine hnd.sublist ?_
  simp only [List.map_append, List.map_cons]
  exact List.Sublist.cons₂ _
    (List.Sublist.append (List.Sublist.refl _) (List.sublist_cons_self _ _))

/-! ### The list of entries is what the heap holds -/

/-- The loop of `ll_conn_remove` started at `iter`, when no node after `iter` has the
value sought: it returns 0 and leaves the memory as it is. -/
theorem ll_conn_remove_loop_absent (list : Nat) (v : Int) (nodes : List (Nat × conn_entry))
    (fuel : Nat) (m : memory) (iter : Nat) (it : node_t)
    (h1 : m.heap iter = some it) (h2 : chain m.heap it.next nodes)
    (habs : ∀ n ∈ nodes, n.2.value ≠ v) (hfuel : nodes.length < fuel) :
    ll_conn_remove_loop list v fuel m iter = .ok (0, m) := by
  induction nodes generalizing fuel iter it with
  | nil =>
    simp only [chain] at h2
    cases fuel with
    | zero => exact absurd hfuel (Nat.lt_irrefl _)
    | succ f => simp [ll_conn_remove_loop, load, h1, h2]
  | cons b rest ih =>
    obtain ⟨hnext, hb0, nb, hhb, hrest⟩ := h2
    have hbv : b.2.value ≠ v := habs b (by simp)
    cases fuel with
    | zero => exact absurd hfuel (Nat.not_lt_zero _)
    | succ f =>
      simp only [ll_conn_remove_loop, load, h1, hnext, hb0, if_false, hhb, hbv]
      exact ih f b.1 _ hhb hrest (fun n hn => habs n (List.mem_cons_of_mem _ hn))
        (by simp only [List.length_cons] at hfuel; omega)

theorem ll_conn_remove_loop_split (v : Int) (pre : List (Nat × conn_entry))
    (x : Nat × conn_entry) (post : List (Nat × conn_entry)) (hx : x.2.value = v)
    (hpre : ∀ n ∈ pre, n.2.value ≠ v) :
    LuaServer.ll_conn_remove_loop v ((pre ++ x :: post).map Prod.snd) =
      some ((pre ++ post).map Prod.snd) := by
  induction pre with
  | nil => simp [LuaServer.ll_conn_remove_loop, hx]
  | cons b rest ih =>
    have hb : b.2.value ≠ v := hpre b (by simp)
    have ih' := ih (fun n hn => hpre n (List.mem_cons_of_mem _ hn))
    show LuaServer.ll_conn_remove_loop v (b.2 :: (rest ++ x :: post).map Prod.snd) =
      some (b.2 :: (rest ++ post).map Prod.snd)
    rw [LuaServer.ll_conn_remove_loop, if_neg hb, ih']
    rfl

/-- Refinement: on a heap that holds a list, `ll_conn_remove` over the heap returns what
`ll_conn_remove` over the sentinel count and the sequence of entries returns, and
leaves a heap that holds the list it describes. -/
theorem ll_conn_remove_refines (m : memory) (list : Nat) (sentinel : node_t)
    (nodes : List (Nat × conn_entry)) (v : Int) (fuel : Nat)
    (hlist : is_list m.heap list nodes) (hs : m.heap list = some sentinel)
    (hfuel : nodes.length < fuel) :
    ∃ m' sentinel' nodes',
      ll_conn_remove fuel m list v =
        .ok ((LuaServer.ll_conn_remove
          { value := sentinel.value, entries := nodes.map Prod.snd } v).1, m') ∧
      is_list m'.heap list nodes' ∧ m'.heap list = some sentinel' ∧
      ({ value := sentinel'.value, entries := nodes'.map Prod.snd } : ll_conn_t) =
        (LuaServer.ll_conn_remove
          { value := sentinel.value, entries := nodes.map Prod.snd } v).2 := by
  by_cases hex : ∃ n ∈ nodes, n.2.value = v
  · obtain ⟨pre, x, post, hsplit, hx, hpre⟩ := split_first v nodes hex
    subst hsplit
    have hl := hlist
    obtain ⟨⟨s0, hs0, hchain⟩, hnd⟩ := hl
    rw [hs] at hs0
    cases hs0
    obtain ⟨m', hrun, -, -, -, ⟨it', hit', hchain', -, -, hval⟩, -, -⟩ :=
      ll_conn_remove_loop_found list v x.1 x.2 post hx pre fuel m list sentinel hs hchain hnd
        (Or.inl rfl) hpre (by simp only [List.length_append, List.length_cons] at hfuel; omega)
    refine ⟨m', it', pre ++ post, ?_, ⟨⟨it', hit', hchain'⟩, ?_⟩, hit', ?_⟩
    · simp only [LuaServer.ll_conn_remove, ll_conn_remove_loop_split v pre x post hx hpre]
      exact hrun
    · refine hnd.sublist ?_
      simp only [List.map_append, List.map_cons]
      exact List.Sublist.cons₂ _
        (List.Sublist.append (List.Sublist.refl _) (List.sublist_cons_self _ _))
    · simp only [LuaServer.ll_conn_remove, ll_conn_remove_loop_split v pre x post hx hpre]
      rw [hval rfl]
  · have habs : ∀ n ∈ nodes, n.2.value ≠ v := fun n hn hv => hex ⟨n, hn, hv⟩
    have hl := hlist
    obtain ⟨⟨s0, hs0, hchain⟩, -⟩ := hl
    rw [hs] at hs0
    cases hs0
    have hnone : LuaServer.ll_conn_remove_loop v (nodes.map Prod.snd) = none := by
      rw [ll_conn_remove_loop_eq_none]
      intro e' he'
      obtain ⟨n, hn, rfl⟩ := List.mem_map.1 he'
      exact habs n hn
    refine ⟨m, sentinel, nodes, ?_, hlist, hs, ?_⟩
    · simp only [LuaServer.ll_conn_remove, hnone]
      exact ll_conn_remove_loop_absent list v nodes fuel m list sentinel hs hchain habs hfuel
    · simp only [LuaServer.ll_conn_remove, hnone]

/-! ### The dispatch pass over the heap -/

/-- The dispatch loop from `temp`, when the heap holds the list `done ++ todo` and `temp`
points at the first node of `todo`: the loop ends without a fault; the nodes it visits
are the first nodes of `todo`, in order, and all of `todo` when no `lua_call` aborts;
it leaves a list made of nodes of `done ++ todo`. -/
theorem dispatch_loop_visits (rfuel list : Nat) (isset : Int → Bool) (j : Nat → Nat)
    (socket : Nat → List read_event)
    (todo : List (Nat × conn_entry)) (done : List (Nat × conn_entry)) (m : memory)
    (lua : lua_State_ptr → lua_State)
    (temp k : Nat) (log : List pass_event) (fuel : Nat)
    (hlist : is_list m.heap list (done ++ todo)) (htemp : chain m.heap temp todo)
    (hfuel : todo.length < fuel) (hrfuel : (done ++ todo).length < rfuel) :
    ∃ r visited final,
      dispatch_loop rfuel list isset j socket fuel m lua temp k log = .ok r ∧
      visits r.log = visits log ++ visited.map (fun n => (n.1, n.2.value, n.2.state)) ∧
      visited <+: todo ∧ (r.panic = false → visited = todo) ∧
      is_list r.mem.heap list final ∧ final.Sublist (done ++ todo) := by
  induction todo generalizing done m lua temp k log fuel with
  | nil =>
    simp only [chain] at htemp
    cases fuel with
    | zero => exact absurd hfuel (Nat.lt_irrefl _)
    | succ f =>
      refine ⟨⟨m, log, lua, false⟩, [], done ++ [], ?_, by simp, List.prefix_refl _,
        fun _ => rfl, hlist, List.Sublist.refl _⟩
      simp [dispatch_loop, htemp]
  | cons n todo ih =>
    obtain ⟨a, e⟩ := n
    obtain ⟨hta, ha0, nx, hha, hnx⟩ := htemp
    simp only at hta ha0 hha
    subst hta
    cases fuel with
    | zero => exact absurd hfuel (Nat.not_lt_zero _)
    | succ f =>
      have hf : todo.length < f := by simp only [List.length_cons] at hfuel; omega
      have hassoc : done ++ (temp, e) :: todo = (done ++ [(temp, e)]) ++ todo := by simp
      have hkeep : ∀ (lua1 : lua_State_ptr → lua_State) (k' : Nat) (log1 : List pass_event),
          visits log1 = visits log ++ [(temp, e.value, e.state)] →
          ∃ r visited final,
            dispatch_loop rfuel list isset j socket f m lua1 nx k' log1 = .ok r ∧
            visits r.log = visits log ++
              visited.map (fun n => (n.1, n.2.value, n.2.state)) ∧
            visited <+: (temp, e) :: todo ∧ (r.panic = false → visited = (temp, e) :: todo) ∧
            is_list r.mem.heap list final ∧ final.Sublist (done ++ (temp, e) :: todo) := by
        intro lua1 k' log1 hlog1
        obtain ⟨r, visited, final, h1, h2, hp, hall, h3, h4⟩ :=
          ih (done ++ [(temp, e)]) m lua1 nx k' log1 f
            (hassoc ▸ hlist) hnx hf (by rw [← hassoc]; exact hrfuel)
        refine ⟨r, (temp, e) :: visited, final, h1, ?_, ?_, ?_, h3, hassoc ▸ h4⟩
        · rw [h2, hlog1]
          simp
        · obtain ⟨t, ht⟩ := hp
          exact ⟨t, by rw [← ht]; simp⟩
        · intro hpan
          rw [hall hpan]
      simp only [dispatch_loop, ha0, if_false, load, hha]
      by_cases hset : isset e.value = true
      · rw [if_pos hset]
        by_cases hj : j k = 0
        · rw [if_pos hj]
          obtain ⟨pre, x, post, hsplit, hx, hpre⟩ := split_first e.value (done ++ [(temp, e)])
            ⟨(temp, e), by simp, rfl⟩
          have hnodes : done ++ (temp, e) :: todo = pre ++ (x.1, x.2) :: (post ++ todo) := by
            rw [hassoc, hsplit]
            simp
          have hlen : pre.length < rfuel := by
            have := congrArg List.length hnodes
            simp only [List.length_append, List.length_cons] at this hrfuel
            omega
          obtain ⟨m1, hrun, hlist1, -, -, -⟩ := ll_conn_remove_found m list e.value pre x.1 x.2
            (post ++ todo) rfuel (hnodes ▸ hlist) hx hpre hlen
          rw [hrun]
          simp only
          have hlist1' : is_list m1.heap list ((pre ++ post) ++ todo) := by
            simpa using hlist1
          have hnx1 : chain m1.heap nx todo := by
            obtain ⟨⟨s1, -, hc1⟩, -⟩ := hlist1'
            obtain ⟨q, hq⟩ := chain_suffix m1.heap s1.next (pre ++ post) todo hc1
            have := chain_start_eq m1.heap m.heap q nx todo hq hnx
            exact this ▸ hq
          have hsub : (pre ++ post).Sublist (done ++ [(temp, e)]) := by
            rw [hsplit]
            exact List.Sublist.append (List.Sublist.refl _) (List.sublist_cons_self _ _)
          have hlen1 : ((pre ++ post) ++ todo).length < rfuel := by
            have := congrArg List.length hnodes
            simp only [List.length_append, List.length_cons] at this hrfuel ⊢
            omega
          obtain ⟨r, visited, final, h1, h2, hp, hall, h3, h4⟩ :=
            ih (pre ++ post) m1 lua nx (k + 1)
              (log ++ [pass_event.visit temp e.value e.state] ++ [pass_event.removed e.value]) f
              hlist1' hnx1 hf hlen1
          refine ⟨r, (temp, e) :: visited, final, h1, ?_, ?_, ?_, h3, ?_⟩
          · rw [h2]
            simp [visits_append, visits]
          · obtain ⟨t, ht⟩ := hp
            exact ⟨t, by rw [← ht]; simp⟩
          · intro hpan
            rw [hall hpan]
          · rw [hassoc]
            exact h4.trans (List.Sublist.append hsub (List.Sublist.refl _))
        · rw [if_neg hj]
          by_cases hpan : (l_read_conn (lua e.state) (socket k)).panic = true
          · rw [if_pos hpan]
            refine ⟨_, [(temp, e)], done ++ (temp, e) :: todo, rfl, ?_, ?_, ?_, hlist,
              List.Sublist.refl _⟩
            · simp [visits_append, visits]
            · exact ⟨todo, rfl⟩
            · intro h
              exact absurd h (by simp)
          · rw [if_neg hpan]
            exact hkeep _ _ _ (by simp [visits_append, visits])
      · rw [if_neg hset]
        exact hkeep _ _ _ (by simp [visits_append, visits])

/-- The dispatch loop over a list without duplicate descriptors, from `temp` at the
first node of `todo`: the loop ends without a fault, and when no `lua_call` has aborted
it, the log, the list left and the states closed are as follows. -/
theorem dispatch_loop_nodup (rfuel list : Nat) (isset : Int → Bool) (j : Nat → Nat)
    (socket : Nat → List read_event)
    (todo : List (Nat × conn_entry)) (done : List (Nat × conn_entry)) (m : memory)
    (lua : lua_State_ptr → lua_State)
    (temp k : Nat) (log : List pass_event) (fuel : Nat)
    (hlist : is_list m.heap list (done ++ todo)) (htemp : chain m.heap temp todo)
    (hnd : ((done ++ todo).map (fun n => n.2.value)).Nodup)
    (hfuel : todo.length < fuel) (hrfuel : (done ++ todo).length < rfuel) :
    ∃ r, dispatch_loop rfuel list isset j socket fuel m lua temp k log = .ok r ∧
      (r.panic = false →
        r.log = log ++ pass_log isset j k todo ∧
        is_list r.mem.heap list (done ++ pass_kept isset j k todo) ∧
        r.mem.closed = m.closed ++ (pass_erased isset j k todo).map (fun n => n.2.state) ∧
        r.mem.freed = m.freed ++ (pass_erased isset j k todo).map Prod.fst) := by
  induction todo generalizing done m lua temp k log fuel with
  | nil =>
    simp only [chain] at htemp
    cases fuel with
    | zero => exact absurd hfuel (Nat.lt_irrefl _)
    | succ f =>
      refine ⟨⟨m, log, lua, false⟩, ?_, fun _ => ⟨by simp [pass_log],
        by simpa [pass_kept] using hlist, by simp [pass_erased], by simp [pass_erased]⟩⟩
      simp [dispatch_loop, htemp]
  | cons n todo ih =>
    obtain ⟨a, e⟩ := n
    obtain ⟨hta, ha0, nx, hha, hnx⟩ := htemp
    simp only at hta ha0 hha
    subst hta
    cases fuel with
    | zero => exact absurd hfuel (Nat.not_lt_zero _)
    | succ f =>
      have hf : todo.length < f := by simp only [List.length_cons] at hfuel; omega
      have hassoc : done ++ (temp, e) :: todo = (done ++ [(temp, e)]) ++ todo := by simp
      have hkeep : ∀ (lua1 : lua_State_ptr → lua_State) (ev : List pass_event),
          peer_closed isset j k e = false →
          ∃ r, dispatch_loop rfuel list isset j socket f m lua1 nx (k + 1)
              (log ++ [pass_event.visit temp e.value e.state] ++ ev) = .ok r ∧
            (r.panic = false →
              r.log = log ++ (pass_event.visit temp e.value e.state :: ev ++
                pass_log isset j (k + 1) todo) ∧
              is_list r.mem.heap list (done ++ pass_kept isset j k ((temp, e) :: todo)) ∧
              r.mem.closed = m.closed ++
                (pass_erased isset j k ((temp, e) :: todo)).map (fun n => n.2.state) ∧
              r.mem.freed = m.freed ++
                (pass_erased isset j k ((temp, e) :: todo)).map Prod.fst) := by
        intro lua1 ev hpc
        obtain ⟨r, h0, hr⟩ := ih (done ++ [(temp, e)]) m lua1 nx (k + 1)
          (log ++ [pass_event.visit temp e.value e.state] ++ ev) f
          (hassoc ▸ hlist) hnx (hassoc ▸ hnd) hf (by rw [← hassoc]; exact hrfuel)
        refine ⟨r, h0, fun hpan => ?_⟩
        obtain ⟨h1, h2, h3, h4⟩ := hr hpan
        refine ⟨?_, ?_, ?_, ?_⟩
        · rw [h1]; simp
        · simpa [pass_kept, hpc] using h2
        · simpa [pass_erased, hpc] using h3
        · simpa [pass_erased, hpc] using h4
      simp only [dispatch_loop, ha0, if_false, load, hha]
      by_cases hset : isset e.value = true
      · rw [if_pos hset]
        by_cases hj : j k = 0
        · rw [if_pos hj]
          have hpc : peer_closed isset j k e = true := by simp [peer_closed, hset, hj]
          have hpre : ∀ n ∈ done, n.2.value ≠ e.value := by
            intro n hn heq
            simp only [List.map_append, List.map_cons] at hnd
            have := (List.nodup_append.1 hnd).2.2
            exact this (List.mem_map.2 ⟨n, hn, heq⟩) (by simp)
          have hlen : done.length < rfuel := by
            simp only [List.length_append, List.length_cons] at hrfuel
            omega
          obtain ⟨m1, hrun, hlist1, hcl1, hfr1, -⟩ := ll_conn_remove_found m list e.value done
            temp e todo rfuel hlist rfl hpre hlen
          rw [hrun]
          simp only
          have hnx1 : chain m1.heap nx todo := by
            obtain ⟨⟨s1, -, hc1⟩, -⟩ := hlist1
            obtain ⟨q, hq⟩ := chain_suffix m1.heap s1.next done todo hc1
            have := chain_start_eq m1.heap m.heap q nx todo hq hnx
            exact this ▸ hq
          have hnd1 : ((done ++ todo).map (fun n => n.2.value)).Nodup := by
            refine hnd.sublist ?_
            simp only [List.map_append, List.map_cons]
            exact List.Sublist.append (List.Sublist.refl _) (List.sublist_cons_self _ _)
          have hlen1 : (done ++ todo).length < rfuel := by
            simp only [List.length_append, List.length_cons] at hrfuel ⊢
            omega
          obtain ⟨r, h0, hr⟩ := ih done m1 lua nx (k + 1)
            (log ++ [pass_event.visit temp e.value e.state] ++ [pass_event.removed e.value]) f
            hlist1 hnx1 hnd1 hf hlen1
          refine ⟨r, h0, fun hpan => ?_⟩
          obtain ⟨h1, h2, h3, h4⟩ := hr hpan
          refine ⟨?_, ?_, ?_, ?_⟩
          · rw [h1]
            simp [pass_log, node_events, hset, hj]
          · simpa [pass_kept, hpc] using h2
          · rw [h3, hcl1]
            simp [pass_erased, hpc]
          · rw [h4, hfr1]
            simp [pass_erased, hpc]
        · rw [if_neg hj]
          have hpc : peer_closed isset j k e = false := by simp [peer_closed, hj]
          by_cases hpan : (l_read_conn (lua e.state) (socket k)).panic = true
          · rw [if_pos hpan]
            exact ⟨_, rfl, fun h => absurd h (by simp)⟩
          · rw [if_neg hpan]
            obtain ⟨r, h0, hr⟩ := hkeep
              (fun p => if p = e.state then (l_read_conn (lua e.state) (socket k)).L else lua p)
              [pass_event.read e.state e.value] hpc
            refine ⟨r, h0, fun hp => ?_⟩
            obtain ⟨h1, h2, h3, h4⟩ := hr hp
            refine ⟨?_, h2, h3, h4⟩
            rw [h1]
            simp [pass_log, node_events, hset, hj]
      · rw [if_neg hset]
        have hpc : peer_closed isset j k e = false := by simp [peer_closed, hset]
        obtain ⟨r, h0, hr⟩ := hkeep lua [] hpc
        simp only [List.append_nil] at h0
        refine ⟨r, h0, fun hp => ?_⟩
        obtain ⟨h1, h2, h3, h4⟩ := hr hp
        refine ⟨?_, h2, h3, h4⟩
        rw [h1]
        simp [pass_log, node_events, hset]

/-- The dispatch pass on a heap that holds a connection list at `connections` (whatever
its nodes, duplicates of a descriptor included), for every readiness set, every
byte-count input and whatever the sockets deliver: the pass never reads through a
pointer to a freed or unallocated node; the nodes it visits are the first nodes of the
list at the start of the pass, in list order, each once, each through its own address
with the descriptor and state it had at the start, and they are all the nodes when no
`lua_call` in `l_read_conn` aborts; the heap afterwards holds a list made of nodes of
the original one. -/
theorem dispatch_pass_visits (m : memory) (lua : lua_State_ptr → lua_State)
    (connections : Nat) (nodes : List (Nat × conn_entry)) (isset : Int → Bool)
    (j : Nat → Nat) (socket : Nat → List read_event) (rfuel fuel : Nat)
    (hlist : is_list m.heap connections nodes)
    (hrfuel : nodes.length < rfuel) (hfuel : nodes.length < fuel) :
    ∃ r visited final,
      dispatch_pass rfuel fuel m lua connections isset j socket = .ok r ∧
      visits r.log = visited.map (fun n => (n.1, n.2.value, n.2.state)) ∧
      visited <+: nodes ∧ (r.panic = false → visited = nodes) ∧
      is_list r.mem.heap connections final ∧ final.Sublist nodes := by
  have hl := hlist
  obtain ⟨⟨sentinel, hs, hchain⟩, -⟩ := hl
  obtain ⟨r, visited, final, h1, h2, hp, hall, h3, h4⟩ :=
    dispatch_loop_visits rfuel connections isset j socket nodes [] m lua sentinel.next 0 []
      fuel (by simpa using hlist) hchain hfuel (by simpa using hrfuel)
  refine ⟨r, visited, final, ?_, ?_, hp, hall, h3, by simpa using h4⟩
  · simp only [dispatch_pass, load, hs]
    exact h1
  · rw [h2]
    simp [visits]

/-- The dispatch pass on a heap that holds a connection list without duplicate
descriptors: it ends without fault, and when no `lua_call` in `l_read_conn` has aborted
it, it leaves the list of exactly the nodes that were not signalled ready with zero
readable bytes, in their original order; the states closed by the pass are those of the
erased nodes, one `lua_close` each, and their nodes are freed once each; the events of
the pass are as `pass_log` lists them. -/
theorem dispatch_pass_completed (m : memory) (lua : lua_State_ptr → lua_State)
    (connections : Nat) (nodes : List (Nat × conn_entry)) (isset : Int → Bool)
    (j : Nat → Nat) (socket : Nat → List read_event) (rfuel fuel : Nat)
    (hlist : is_list m.heap connections nodes)
    (hnd : (nodes.map (fun n => n.2.value)).Nodup)
    (hrfuel : nodes.length < rfuel) (hfuel : nodes.length < fuel) :
    ∃ r, dispatch_pass rfuel fuel m lua connections isset j socket = .ok r ∧
      (r.panic = false →
        r.log = pass_log isset j 0 nodes ∧
        is_list r.mem.heap connections (pass_kept isset j 0 nodes) ∧
        r.mem.closed = m.closed ++ (pass_erased isset j 0 nodes).map (fun n => n.2.state) ∧
        r.mem.freed = m.freed ++ (pass_erased isset j 0 nodes).map Prod.fst) := by
  have hl := hlist
  obtain ⟨⟨sentinel, hs, hchain⟩, -⟩ := hl
  obtain ⟨r, h0, hr⟩ := dispatch_loop_nodup rfuel connections isset j socket nodes [] m lua
    sentinel.next 0 [] fuel (by simpa using hlist) hchain (by simpa using hnd) hfuel
    (by simpa using hrfuel)
  refine ⟨r, ?_, fun hp => ?_⟩
  · simp only [dispatch_pass, load, hs]
    exact h0
  · obtain ⟨h1, h2, h3, h4⟩ := hr hp
    exact ⟨by simpa using h1, by simpa using h2, h3, h4⟩

/-! ### C10: iteration safety of the dispatch pass -/

/-- C10, the code at the failing input: the registry holds the connections 5, 7 and 9
(nodes 11, 12 and 13), all three are signalled ready with five bytes to read, and each
socket delivers the chunks "he" and "llo\n".  The pass examines node 11, calls
`l_read_conn` for it, and that call aborts the process at `lua_call(L, 1, 0)` with the
fragment "he" in function position: the connections 7 and 9, present in the registry
at the start of the pass, are never examined. -/
theorem dispatch_pass_abort_skips_connections :
    is_list example_heap 10 [(11, ⟨5, 100⟩), (12, ⟨7, 101⟩), (13, ⟨9, 102⟩)] ∧
    ∃ r, dispatch_pass 4 4 { heap := example_heap, closed := [], freed := [] }
        (fun _ => { stack := [], calls := [] }) 10 (fun _ => true) (fun _ => 5)
        (fun _ => [.data ['h', 'e'], .data ['l', 'l', 'o', '\n']]) =
        .ok r ∧
      r.panic = true ∧
      visits r.log = [(11, 5, 100)] ∧
      r.log = [pass_event.visit 11 5 100, pass_event.read 100 5] ∧
      (r.lua 100).calls = [{ callee := lua_Value.str ['h', 'e'],
                             args := [lua_Value.str ['l', 'l', 'o']] }] := by
  refine ⟨⟨⟨{ next := 11, value := 3, state := 0 }, rfl,
      rfl, by decide, 12, rfl, rfl, by decide, 13, rfl, rfl, by decide, 0, rfl, rfl⟩,
      by decide⟩, _, rfl, ?_, ?_, ?_, ?_⟩ <;> decide

/-! ### C11: peer close -/

/-- C11, the code at the failing input: the duplicate-free registry holds the
connections 5, 7 and 9 (nodes 11, 12 and 13); 5 is signalled ready and its socket
delivers the chunks "he" and "llo\n", 7 is signalled ready with zero readable bytes,
9 is not signalled ready.  Connection 7 is the one to erase, yet the pass ends at node
11, where `l_read_conn` aborts the process at `lua_call(L, 1, 0)`: nothing is given to
`lua_close`, nothing is freed, and the registry still holds all three connections. -/
theorem dispatch_pass_abort_keeps_peer_closed :
    ([(11, ⟨5, 100⟩), (12, ⟨7, 101⟩), (13, ⟨9, 102⟩)].map
      (fun n : Nat × conn_entry => n.2.value)).Nodup ∧
    pass_erased (fun v => decide (v ≠ 9)) (fun k => if k = 0 then 5 else 0) 0
      [(11, ⟨5, 100⟩), (12, ⟨7, 101⟩), (13, ⟨9, 102⟩)] = [(12, ⟨7, 101⟩)] ∧
    ∃ r, dispatch_pass 4 4 { heap := example_heap, closed := [], freed := [] }
        (fun _ => { stack := [], calls := [] }) 10 (fun v => decide (v ≠ 9))
        (fun k => if k = 0 then 5 else 0)
        (fun k => if k = 0 then [.data ['h', 'e'], .data ['l', 'l', 'o', '\n']] else []) =
        .ok r ∧
      r.panic = true ∧
      r.log = [pass_event.visit 11 5 100, pass_event.read 100 5] ∧
      r.mem.closed = [] ∧ r.mem.freed = [] ∧
      is_list r.mem.heap 10 [(11, ⟨5, 100⟩), (12, ⟨7, 101⟩), (13, ⟨9, 102⟩)] := by
  refine ⟨by decide, by decide, _, rfl, by decide, by decide, rfl, rfl,
    ⟨{ next := 11, value := 3, state := 0 }, rfl,
      rfl, by decide, 12, rfl, rfl, by decide, 13, rfl, rfl, by decide, 0, rfl, rfl⟩,
      by decide⟩

/-! ### C12: what `ll_conn_remove` closes -/

/-- C12: on a heap that holds a connection list, `ll_conn_remove` returns 1 or 0.  When
it returns 1 it has given exactly one state to `lua_close`, the state of the erased node
(the first node with the value sought), and freed that node; the heap then holds the list
of the other nodes.  When it returns 0 no node has the value sought and the memory,
the log of closed states included, is as it was. -/
theorem ll_conn_remove_closes_erased (m : memory) (list : Nat)
    (nodes : List (Nat × conn_entry)) (v : Int) (fuel : Nat)
    (hlist : is_list m.heap list nodes) (hfuel : nodes.length < fuel) :
    (∃ m' pre a e post, ll_conn_remove fuel m list v = .ok (1, m') ∧
      nodes = pre ++ (a, e) :: post ∧ e.value = v ∧ (∀ n ∈ pre, n.2.value ≠ v) ∧
      m'.closed = m.closed ++ [e.state] ∧ m'.freed = m.freed ++ [a] ∧
      is_list m'.heap list (pre ++ post)) ∨
    (ll_conn_remove fuel m list v = .ok (0, m) ∧ ∀ n ∈ nodes, n.2.value ≠ v) := by
  by_cases hex : ∃ n ∈ nodes, n.2.value = v
  · left
    obtain ⟨pre, x, post, hsplit, hx, hpre⟩ := split_first v nodes hex
    subst hsplit
    obtain ⟨m', hrun, hl', hcl, hfr, -⟩ := ll_conn_remove_found m list v pre x.1 x.2 post fuel
      hlist hx hpre (by simp only [List.length_append, List.length_cons] at hfuel; omega)
    exact ⟨m', pre, x.1, x.2, post, hrun, rfl, hx, hpre, hcl, hfr, hl'⟩
  · right
    have habs : ∀ n ∈ nodes, n.2.value ≠ v := fun n hn hv => hex ⟨n, hn, hv⟩
    obtain ⟨⟨sentinel, hs, hchain⟩, -⟩ := hlist
    exact ⟨ll_conn_remove_loop_absent list v nodes fuel m list sentinel hs hchain habs hfuel,
      habs⟩

/-- Witness for C12: descriptor 7 is removed from the list of descriptors 5, 7 and 9. -/
theorem ll_conn_remove_closes_erased_witness :
    (∃ m' pre a e post,
      ll_conn_remove 4 { heap := example_heap, closed := [], freed := [] } 10 7 = .ok (1, m') ∧
      [(11, (⟨5, 100⟩ : conn_entry)), (12, ⟨7, 101⟩), (13, ⟨9, 102⟩)] = pre ++ (a, e) :: post ∧
      e.value = 7 ∧ (∀ n ∈ pre, n.2.value ≠ 7) ∧
      m'.closed = [] ++ [e.state] ∧ m'.freed = [] ++ [a] ∧
      is_list m'.heap 10 (pre ++ post)) ∨
    (ll_conn_remove 4 { heap := example_heap, closed := [], freed := [] } 10 7 =
        .ok (0, { heap := example_heap, closed := [], freed := [] }) ∧
      ∀ n ∈ [(11, (⟨5, 100⟩ : conn_entry)), (12, ⟨7, 101⟩), (13, ⟨9, 102⟩)], n.2.value ≠ 7) :=
  ll_conn_remove_closes_erased { heap := example_heap, closed := [], freed := [] } 10
    [(11, ⟨5, 100⟩), (12, ⟨7, 101⟩), (13, ⟨9, 102⟩)] 7 4
    ⟨⟨{ next := 11, value := 3, state := 0 }, rfl,
      rfl, by decide, 12, rfl, rfl, by decide, 13, rfl, rfl, by decide, 0, rfl, rfl⟩,
      by decide⟩
    (by decide)

end Mem

/-! ### C13 and C14: what the accept step registers -/

/-- C13, the code at the failing input: the listener on descriptor 3 is ready in two
successive turns and `accept` returns -1 both times.  Two states are created, 1 and 2;
none is closed; the list holds one entry, with state 1: state 2 is neither in an entry
nor closed. -/
theorem main_collision_leaks_state :
    (main_loop 3 main_init [accept_cycle 3 (-1), accept_cycle 3 (-1)]).created = [1, 2] ∧
    (main_loop 3 main_init [accept_cycle 3 (-1), accept_cycle 3 (-1)]).closed = [] ∧
    (main_loop 3 main_init [accept_cycle 3 (-1), accept_cycle 3 (-1)]).connections.entries =
      [{ value := -1, state := 1 }] ∧
    (ll_conn_append (main_loop 3 main_init [accept_cycle 3 (-1)]).connections (-1) 2).1 = -1 := by
  decide

/-- C14, the code at the failing input: from the empty list, a turn in which the
listener on descriptor 3 is ready and `accept` returns -1 leaves a list with one entry
of descriptor -1, and a sentinel count of 1. -/
theorem main_failed_accept_registers :
    main_init.connections = { value := 0, entries := [] } ∧
    (accept_step (-1) main_init).connections =
      { value := 1, entries := [{ value := -1, state := 1 }] } ∧
    (main_cycle 3 main_init (accept_cycle 3 (-1))).connections =
      { value := 1, entries := [{ value := -1, state := 1 }] } := by
  decide

/-! ### C15: a failing read -/

theorem read_loop_error (evs rest : List read_event) (s : rd_state) :
    read_loop (evs ++ read_event.error :: rest) s = read_loop evs s := by
  induction evs generalizing s with
  | nil => simp [read_loop]
  | cons ev evs ih =>
    cases ev with
    | idle => simp [read_loop]
    | error => simp [read_loop]
    | data buffer =>
      have ih' : ∀ s, read_loop (evs.append (read_event.error :: rest)) s = read_loop evs s := ih
      simp only [List.cons_append, read_loop, ih']

theorem ll_conn_remove_loop_at (v : Int) (pre : List conn_entry) (e : conn_entry)
    (post : List conn_entry) (he : e.value = v) (hpre : ∀ x ∈ pre, x.value ≠ v) :
    ll_conn_remove_loop v (pre ++ e :: post) = some (pre ++ post) := by
  induction pre with
  | nil => simp [ll_conn_remove_loop, he]
  | cons b pre ih =>
    have hb : b.value ≠ v := hpre b (by simp)
    have ih' := ih (fun x hx => hpre x (List.mem_cons_of_mem _ hx))
    show ll_conn_remove_loop v (b :: (pre ++ e :: post)) = some (b :: (pre ++ post))
    rw [ll_conn_remove_loop, if_neg hb, ih']
    rfl

/-- The pass over a list without duplicate descriptors, when no `lua_call` aborts: the
entries left are those not signalled ready with zero readable bytes. -/
theorem dispatch_list_nodup (c : cycle) (todo done : List conn_entry) (k : Nat) (s : server)
    (hent : s.connections.entries = done ++ todo)
    (hnd : ((done ++ todo).map conn_entry.value).Nodup)
    (hdone : (dispatch_list c todo k s).panic = false) :
    (dispatch_list c todo k s).connections.entries =
      done ++ kept_entries c.isset c.j k todo := by
  induction todo generalizing done k s with
  | nil => simpa [dispatch_list, kept_entries] using hent
  | cons e rest ih =>
    have hassoc : done ++ e :: rest = (done ++ [e]) ++ rest := by simp
    rw [dispatch_list] at hdone ⊢
    by_cases hset : c.isset e.value = true
    · rw [if_pos hset] at hdone ⊢
      by_cases hj : c.j k = 0
      · rw [if_pos hj] at hdone ⊢
        have hpc : Mem.peer_closed c.isset c.j k e = true := by
          simp [Mem.peer_closed, hset, hj]
        have hpre : ∀ x ∈ done, x.value ≠ e.value := by
          intro x hx heq
          simp only [List.map_append, List.map_cons] at hnd
          exact (List.nodup_append.1 hnd).2.2 (List.mem_map.2 ⟨x, hx, heq⟩) (by simp)
        have hrem : (ll_conn_remove s.connections e.value).2.entries = done ++ rest := by
          simp only [ll_conn_remove, hent, ll_conn_remove_loop_at e.value done e rest rfl hpre]
        have hnd1 : ((done ++ rest).map conn_entry.value).Nodup := by
          refine hnd.sublist ?_
          simp only [List.map_append, List.map_cons]
          exact List.Sublist.append (List.Sublist.refl _) (List.sublist_cons_self _ _)
        have hstep := ih done (k + 1)
          { s with connections := (ll_conn_remove s.connections e.value).2,
                   closed := s.closed ++ ll_conn_remove_closes s.connections e.value }
          hrem hnd1 hdone
        rw [hstep]
        simp [kept_entries, hpc]
      · rw [if_neg hj] at hdone ⊢
        have hpc : Mem.peer_closed c.isset c.j k e = false := by
          simp [Mem.peer_closed, hj]
        cases hp : (l_read_conn (s.lua e.state) (c.socket k)).panic with
        | true =>
          simp only [hp, if_true] at hdone
          cases hdone
        | false =>
          simp only [hp, Bool.false_eq_true, if_false] at hdone ⊢
          have hstep := ih (done ++ [e]) (k + 1)
            { s with lua := fun p => if p = e.state then
                       (l_read_conn (s.lua e.state) (c.socket k)).L else s.lua p,
                     panic := false }
            (by simpa using hent) (hassoc ▸ hnd) hdone
          rw [hstep]
          simp [kept_entries, hpc]
    · rw [if_neg hset] at hdone ⊢
      have hpc : Mem.peer_closed c.isset c.j k e = false := by
        simp [Mem.peer_closed, hset]
      rw [ih (done ++ [e]) (k + 1) s (by simpa using hent) (hassoc ▸ hnd) hdone]
      simp [kept_entries, hpc]

theorem kept_entries_mem (isset : Int → Bool) (j : Nat → Nat) (pre : List conn_entry)
    (e : conn_entry) (post : List conn_entry) (k : Nat)
    (h : Mem.peer_closed isset j (k + pre.length) e = false) :
    e ∈ kept_entries isset j k (pre ++ e :: post) := by
  induction pre generalizing k with
  | nil =>
    simp only [List.length_nil, Nat.add_zero] at h
    simp [kept_entries, h]
  | cons b pre ih =>
    have h' : Mem.peer_closed isset j (k + 1 + pre.length) e = false := by
      rw [← h]; congr 1; simp only [List.length_cons]; omega
    have := ih (k + 1) h'
    simp only [List.cons_append, kept_entries]
    split
    · exact this
    · exact List.mem_cons_of_mem _ this

/-- C15, the code at the failing input: with the connections 4 and 5 registered, a pass
in which both are signalled ready, the `read` on connection 4 fails and connection 5
has zero readable bytes.  The failing `read` only leaves the loop of `l_read_conn`
(`/* TODO error handling */`), which returns nothing to `main`: the pass ends with
connection 4 still registered and its state not closed; only connection 5 is removed. -/
theorem main_read_error_keeps_connection :
    example_server.connections.entries = [{ value := 4, state := 1 }, { value := 5, state := 2 }] ∧
    read_error_cycle.socket 0 = [read_event.error] ∧
    (main_cycle 3 example_server read_error_cycle).connections.entries =
      [{ value := 4, state := 1 }] ∧
    (main_cycle 3 example_server read_error_cycle).closed = [2] ∧
    (main_cycle 3 example_server read_error_cycle).panic = false := by
  decide

/-- What a failing `read` does in a pass, on every list and input.
In a dispatch pass over a list without duplicate descriptors in which no `lua_call`
aborts, let the connection `e` be signalled ready with readable bytes and let a `read`
on it fail.  Then `l_read_conn` behaves on its socket as if the data ended where the
`read` failed, `e` is still registered after the pass, and the pass has gone through
all the connections: the entries left are exactly those not signalled ready with zero
readable bytes. -/
theorem dispatch_list_read_error_local (c : cycle) (s : server)
    (pre post : List conn_entry) (e : conn_entry) (evs rest : List read_event)
    (hent : s.connections.entries = pre ++ e :: post)
    (hnd : (s.connections.entries.map conn_entry.value).Nodup)
    (hready : c.isset e.value = true) (hj : c.j pre.length ≠ 0)
    (hsock : c.socket pre.length = evs ++ read_event.error :: rest)
    (hdone : (dispatch_list c s.connections.entries 0 s).panic = false) :
    (∀ L, l_read_conn L (c.socket pre.length) = l_read_conn L evs) ∧
    e ∈ (dispatch_list c s.connections.entries 0 s).connections.entries ∧
    (dispatch_list c s.connections.entries 0 s).connections.entries =
      kept_entries c.isset c.j 0 s.connections.entries := by
  have hkept := dispatch_list_nodup c s.connections.entries [] 0 s (by simp) (by simpa using hnd)
    hdone
  simp only [List.nil_append] at hkept
  refine ⟨?_, ?_, hkept⟩
  · intro L
    rw [hsock]
    simp only [l_read_conn, read_loop_error]
  · rw [hkept, hent]
    apply kept_entries_mem
    simp [Mem.peer_closed, hready, hj]

/-! ### C16: appending a new descriptor -/

/-- C16: for every list whose sentinel count is an `int` below `INT_MAX` (so that the
increment does not overflow) and every descriptor `v` that no entry has,
`ll_conn_append(list, v, state)` returns 0; the entries afterwards are the original
entries, unchanged and in their order, followed by the new last entry `(v, state)`, and
the sentinel count is one more. -/
theorem ll_conn_append_fresh (list : ll_conn_t) (v : Int) (state : lua_State_ptr)
    (habs : ∀ e ∈ list.entries, e.value ≠ v)
    (hlo : INT_MIN ≤ list.value) (hhi : list.value < INT_MAX) :
    ll_conn_append list v state =
      (0, { value := list.value + 1,
            entries := list.entries ++ [{ value := v, state := state }] }) := by
  unfold ll_conn_append
  cases hl : ll_conn_append_loop v state list.entries with
  | none =>
    obtain ⟨e, he, hev⟩ := (ll_conn_append_loop_eq_none v state list.entries).1 hl
    exact absurd hev (habs e he)
  | some r =>
    obtain ⟨h1, -⟩ := ll_conn_append_loop_eq_some v state list.entries r hl
    have hw : wrap32 (list.value + 1) = list.value + 1 := by
      apply wrap32_of_range
      · unfold INT_MIN at *; omega
      · unfold INT_MAX at *; omega
    simp [hw, h1]

/-- Witness for C16: descriptor 9 is appended to the list of descriptors 4 and 5. -/
theorem ll_conn_append_fresh_witness :
    ll_conn_append { value := 2, entries := [⟨4, 1⟩, ⟨5, 2⟩] } 9 3 =
      (0, { value := 2 + 1, entries := [⟨4, 1⟩, ⟨5, 2⟩] ++ [{ value := 9, state := 3 }] }) :=
  ll_conn_append_fresh { value := 2, entries := [⟨4, 1⟩, ⟨5, 2⟩] } 9 3
    (by decide) (by decide) (by decide)

/-! ### C17: `ll_conn_delete` -/

namespace Mem

/-- C17, the code at two failing inputs.  On the list of the three connections at 11, 12
and 13 (states 100, 101, 102) with its sentinel at 10, `ll_conn_delete` gives to
`lua_close` the sentinel's `NULL` state and the states 100 and 101, frees the nodes 10,
11 and 12, and returns with the last node still allocated and its state 102 not closed.
On the empty list it closes and frees nothing: the sentinel stays allocated. -/
theorem ll_conn_delete_leaves_last_node :
    (∃ m', ll_conn_delete 5 { heap := example_heap, closed := [], freed := [] } 10 = .ok m' ∧
      m'.closed = [0, 100, 101] ∧ m'.freed = [10, 11, 12] ∧
      m'.heap 13 = some { next := 0, value := 9, state := 102 }) ∧
    (∃ m', ll_conn_delete 5 { heap := empty_heap, closed := [], freed := [] } 10 = .ok m' ∧
      m'.closed = [] ∧ m'.freed = [] ∧
      m'.heap 10 = some { next := 0, value := 0, state := 0 }) :=
  ⟨⟨_, rfl, rfl, rfl, rfl⟩, ⟨_, rfl, rfl, rfl, rfl⟩⟩

end Mem

/-! ### C18: the value in function position -/

/-- C18, the code at the failing input: the chunks "GE" and "T\n" read by one invocation.
The only `lua_call` made has the buffered fragment "GE" in function position, not the
handler, and the call aborts. -/
theorem l_read_conn_calls_fragment :
    (l_read_conn { stack := [], calls := [] } [.data ['G', 'E'], .data ['T', '\n']]).L.calls =
      [{ callee := lua_Value.str ['G', 'E'], args := [lua_Value.str ['T']] }] ∧
    (l_read_conn { stack := [], calls := [] }
      [.data ['G', 'E'], .data ['T', '\n']]).locals.overflow_count = 1 ∧
    (l_read_conn { stack := [], calls := [] } [.data ['G', 'E'], .data ['T', '\n']]).panic = true ∧
    ¬ ∀ ev ∈ (l_read_conn { stack := [], calls := [] }
        [.data ['G', 'E'], .data ['T', '\n']]).L.calls, ev.callee = lua_Value.onread := by
  decide

/-! ### C19: bounds of the overflow counters -/

/-- `read_loop` is the iteration of `read_turn`. -/
theorem read_loop_turn (ev : read_event) (rest : List read_event) (s : rd_state) :
    read_loop (ev :: rest) s =
      match read_turn ev s with
      | .next s1 => read_loop rest s1
      | .stop s1 => .ok s1
      | .abort s1 => .error s1 := by
  cases ev with
  | idle => simp [read_loop, read_turn]
  | error => simp [read_loop, read_turn]
  | data buffer =>
    simp only [read_loop, read_turn]
    split
    · rfl
    · split
      · rfl
      · split
        · split <;> rfl
        · rfl

theorem scan_buffer_counts (buffer : List Char) (n i start : Nat) (s : rd_state)
    (h : s.overflow_count ≤ s.overflow_size) :
    (∀ r, scan_buffer buffer n i start s = .ok r →
      r.2.overflow_count ≤ r.2.overflow_size ∧ r.2.overflow_count ≤ s.overflow_count ∧
      r.2.overflow_size ≤ s.overflow_size) ∧
    (∀ e, scan_buffer buffer n i start s = .error e →
      e.overflow_count ≤ e.overflow_size ∧ e.overflow_count ≤ s.overflow_count ∧
      e.overflow_size ≤ s.overflow_size) := by
  induction n generalizing i start s with
  | zero =>
    constructor
    · intro r hr
      simp only [scan_buffer, Except.ok.injEq] at hr
      subst hr
      exact ⟨h, Nat.le_refl _, Nat.le_refl _⟩
    · intro e he
      simp [scan_buffer] at he
  | succ n ih =>
    rw [scan_buffer]
    by_cases hnl : buffer.getD i ' ' ≠ '\n'
    · rw [if_pos hnl]
      exact ih _ _ _ h
    · rw [if_neg hnl]
      cases hc : lua_call (lua_pushlstring (if s.overflow_count = 0 then lua_getglobal s.L else s.L)
          (buffer_slice buffer start (i - start))) 1 with
      | error L3 =>
        simp only [hc]
        constructor
        · intro r hr
          cases hr
        · intro e he
          simp only [Except.error.injEq] at he
          subst he
          exact ⟨h, Nat.le_refl _, Nat.le_refl _⟩
      | ok L3 =>
        simp only [hc]
        obtain ⟨ih1, ih2⟩ := ih (i + 1) (i + 1)
          { s with L := L3, overflow_count := 0, overflow_size := 0 } (Nat.le_refl _)
        constructor
        · intro r hr
          obtain ⟨a, b, c⟩ := ih1 r hr
          simp only at b c
          exact ⟨a, by omega, by omega⟩
        · intro e he
          obtain ⟨a, b, c⟩ := ih2 e he
          simp only at b c
          exact ⟨a, by omega, by omega⟩

/-- What one turn of the loop does to the counters, from a start with
`overflow_count ≤ overflow_size < READ_OVERFLOW_SIZE_LIMIT`. -/
theorem read_turn_counts (ev : read_event) (s : rd_state)
    (h1 : s.overflow_count ≤ s.overflow_size)
    (h2 : s.overflow_size < READ_OVERFLOW_SIZE_LIMIT) :
    match read_turn ev s with
    | .next s1 => s1.overflow_count ≤ s1.overflow_size ∧
        s1.overflow_size < READ_OVERFLOW_SIZE_LIMIT
    | .stop s1 => s1.overflow_count ≤ s1.overflow_size ∧
        s1.overflow_count ≤ READ_OVERFLOW_SIZE_LIMIT
    | .abort s1 => s1.overflow_count ≤ s1.overflow_size ∧
        s1.overflow_count ≤ READ_OVERFLOW_SIZE_LIMIT := by
  cases ev with
  | idle => exact ⟨h1, by omega⟩
  | error => exact ⟨h1, by omega⟩
  | data buffer =>
    simp only [read_turn]
    by_cases h0 : buffer.length = 0
    · rw [if_pos h0]
      exact ⟨h1, by omega⟩
    · rw [if_neg h0]
      obtain ⟨sc1, sc2⟩ := scan_buffer_counts buffer buffer.length 0 0
        { s with reads := s.reads + 1 } h1
      cases hsc : scan_buffer buffer buffer.length 0 0 { s with reads := s.reads + 1 } with
      | error s1 =>
        obtain ⟨a, b, c⟩ := sc2 _ hsc
        simp only at b c
        exact ⟨a, by omega⟩
      | ok r1 =>
        obtain ⟨start, s1⟩ := r1
        obtain ⟨a, b, c⟩ := sc1 _ hsc
        simp only at a b c
        simp only
        by_cases hst : start < buffer.length
        · rw [if_pos hst]
          by_cases hlim : s1.overflow_size + (buffer.length - start) ≥ READ_OVERFLOW_SIZE_LIMIT
          · rw [if_pos hlim]
            simp only
            exact ⟨by omega, by omega⟩
          · rw [if_neg hlim]
            simp only
            exact ⟨by omega, by omega⟩
        · rw [if_neg hst]
          exact ⟨a, by omega⟩

theorem read_loop_starts_counts (events : List read_event) (s : rd_state)
    (h1 : s.overflow_count ≤ s.overflow_size)
    (h2 : s.overflow_size < READ_OVERFLOW_SIZE_LIMIT) :
    ∀ t ∈ read_loop_starts events s,
      t.overflow_count ≤ t.overflow_size ∧ t.overflow_size < READ_OVERFLOW_SIZE_LIMIT := by
  induction events generalizing s with
  | nil =>
    intro t ht
    simp only [read_loop_starts, List.mem_singleton] at ht
    subst ht
    exact ⟨h1, h2⟩
  | cons ev rest ih =>
    intro t ht
    simp only [read_loop_starts, List.mem_cons] at ht
    rcases ht with rfl | ht
    · exact ⟨h1, h2⟩
    · have hturn := read_turn_counts ev s h1 h2
      cases hrt : read_turn ev s with
      | next s1 =>
        rw [hrt] at hturn ht
        exact ih s1 hturn.1 hturn.2 t ht
      | stop s1 =>
        rw [hrt] at ht
        cases ht
      | abort s1 =>
        rw [hrt] at ht
        cases ht

theorem read_loop_counts (events : List read_event) (s : rd_state)
    (h1 : s.overflow_count ≤ s.overflow_size)
    (h2 : s.overflow_size < READ_OVERFLOW_SIZE_LIMIT) :
    (∀ r, read_loop events s = .ok r →
      r.overflow_count ≤ r.overflow_size ∧ r.overflow_count ≤ READ_OVERFLOW_SIZE_LIMIT) ∧
    (∀ e, read_loop events s = .error e →
      e.overflow_count ≤ e.overflow_size ∧ e.overflow_count ≤ READ_OVERFLOW_SIZE_LIMIT) := by
  induction events generalizing s with
  | nil =>
    constructor
    · intro r hr
      simp only [read_loop, Except.ok.injEq] at hr
      subst hr
      exact ⟨h1, by omega⟩
    · intro e he
      simp [read_loop] at he
  | cons ev rest ih =>
    rw [read_loop_turn]
    have hturn := read_turn_counts ev s h1 h2
    cases hrt : read_turn ev s with
    | next s1 =>
      rw [hrt] at hturn
      exact ih s1 hturn.1 hturn.2
    | stop s1 =>
      rw [hrt] at hturn
      constructor
      · intro r hr
        simp only [Except.ok.injEq] at hr
        subst hr
        exact hturn
      · intro e he
        cases he
    | abort s1 =>
      rw [hrt] at hturn
      constructor
      · intro r hr
        cases hr
      · intro e he
        simp only [Except.error.injEq] at he
        subst he
        exact hturn

/-- C19: for every sequence of events whose chunks are each at most `READ_BUFFER_SIZE`
bytes, in one `l_read_conn` invocation: at the start of every turn of the loop
`overflow_count ≤ overflow_size < READ_OVERFLOW_SIZE_LIMIT`; when the loop is left (by a
`break` or an abort) `overflow_count ≤ overflow_size`; `overflow_size` is never assigned
more than 8195 (`READ_OVERFLOW_SIZE_LIMIT + READ_BUFFER_SIZE - 1`); and `overflow_count`,
the number of fragments passed by the final call, is at most 4098. -/
theorem l_read_conn_overflow_counters (L : lua_State) (events : List read_event)
    (hb : ∀ b, read_event.data b ∈ events → b.length ≤ READ_BUFFER_SIZE) :
    (∀ t ∈ read_loop_starts events
        { L := L, overflow_count := 0, overflow_size := 0, reads := 0, peak := 0 },
      t.overflow_count ≤ t.overflow_size ∧ t.overflow_size < READ_OVERFLOW_SIZE_LIMIT) ∧
    (l_read_conn L events).locals.overflow_count ≤ (l_read_conn L events).locals.overflow_size ∧
    (l_read_conn L events).locals.overflow_size ≤ (l_read_conn L events).locals.peak ∧
    (l_read_conn L events).locals.peak ≤ 8195 ∧
    (l_read_conn L events).locals.overflow_count ≤ 4098 := by
  have h0 : (0 : Nat) < READ_OVERFLOW_SIZE_LIMIT := by simp [READ_OVERFLOW_SIZE_LIMIT]
  refine ⟨read_loop_starts_counts events _ (Nat.le_refl _) h0, ?_⟩
  obtain ⟨c1, c2⟩ := read_loop_counts events
    { L := L, overflow_count := 0, overflow_size := 0, reads := 0, peak := 0 } (Nat.le_refl _) h0
  obtain ⟨z1, z2⟩ := read_loop_sizes events
    { L := L, overflow_count := 0, overflow_size := 0, reads := 0, peak := 0 } hb
    h0 (Nat.le_refl _) (Nat.zero_le _)
  have hlim : READ_OVERFLOW_SIZE_LIMIT = 4098 := rfl
  have hbuf : READ_BUFFER_SIZE = 4098 := rfl
  unfold l_read_conn
  cases h : read_loop events
      { L := L, overflow_count := 0, overflow_size := 0, reads := 0, peak := 0 } with
  | error e =>
    obtain ⟨a, b⟩ := c2 e h
    obtain ⟨c, d⟩ := z2 e h
    simp only [l_read_conn_end]
    exact ⟨a, c, by omega, by omega⟩
  | ok r =>
    obtain ⟨a, b⟩ := c1 r h
    obtain ⟨c, d⟩ := z1 r h
    rw [l_read_conn_end_locals]
    exact ⟨a, c, by omega, by omega⟩

/-- Witness for C19: the chunks "ab" and "c\nd". -/
theorem l_read_conn_overflow_counters_witness :
    (∀ t ∈ read_loop_starts [.data ['a', 'b'], .data ['c', '\n', 'd']]
        { L := { stack := [], calls := [] }, overflow_count := 0, overflow_size := 0,
          reads := 0, peak := 0 },
      t.overflow_count ≤ t.overflow_size ∧ t.overflow_size < READ_OVERFLOW_SIZE_LIMIT) ∧
    (l_read_conn { stack := [], calls := [] }
      [.data ['a', 'b'], .data ['c', '\n', 'd']]).locals.overflow_count ≤
      (l_read_conn { stack := [], calls := [] }
        [.data ['a', 'b'], .data ['c', '\n', 'd']]).locals.overflow_size ∧
    (l_read_conn { stack := [], calls := [] }
      [.data ['a', 'b'], .data ['c', '\n', 'd']]).locals.overflow_size ≤
      (l_read_conn { stack := [], calls := [] }
        [.data ['a', 'b'], .data ['c', '\n', 'd']]).locals.peak ∧
    (l_read_conn { stack := [], calls := [] }
      [.data ['a', 'b'], .data ['c', '\n', 'd']]).locals.peak ≤ 8195 ∧
    (l_read_conn { stack := [], calls := [] }
      [.data ['a', 'b'], .data ['c', '\n', 'd']]).locals.overflow_count ≤ 4098 :=
  l_read_conn_overflow_counters { stack := [], calls := [] }
    [.data ['a', 'b'], .data ['c', '\n', 'd']]
    (by
      intro b hmem
      simp only [List.mem_cons, List.mem_singleton, read_event.data.injEq, List.not_mem_nil,
        or_false] at hmem
      rcases hmem with rfl | rfl <;> decide)

/-! ### C20: `maxfd` -/

theorem ll_conn_remove_entries_subset (list : ll_conn_t) (v : Int) :
    ∀ e ∈ (ll_conn_remove list v).2.entries, e ∈ list.entries := by
  intro e he
  unfold ll_conn_remove at he
  cases hl : ll_conn_remove_loop v list.entries with
  | none =>
    rw [hl] at he
    exact he
  | some r =>
    rw [hl] at he
    obtain ⟨pre, x, post, h1, -, -, h4⟩ := ll_conn_remove_loop_eq_some v list.entries r hl
    simp only [h4, List.mem_append] at he
    rw [h1]
    rcases he with h | h
    · exact List.mem_append_left _ h
    · exact List.mem_append_right _ (List.mem_cons_of_mem _ h)

theorem ll_conn_append_entries_subset (list : ll_conn_t) (v : Int) (state : lua_State_ptr) :
    ∀ e ∈ (ll_conn_append list v state).2.entries, e ∈ list.entries ∨ e.value = v := by
  intro e he
  unfold ll_conn_append at he
  cases hl : ll_conn_append_loop v state list.entries with
  | none =>
    rw [hl] at he
    exact Or.inl he
  | some r =>
    rw [hl] at he
    obtain ⟨h1, -⟩ := ll_conn_append_loop_eq_some v state list.entries r hl
    simp only [h1, List.mem_append, List.mem_singleton] at he
    rcases he with h | h
    · exact Or.inl h
    · exact Or.inr (by rw [h])

theorem dispatch_list_maxfd (c : cycle) (todo : List conn_entry) (k : Nat) (s : server) :
    (dispatch_list c todo k s).maxfd = s.maxfd ∧
    ∀ e ∈ (dispatch_list c todo k s).connections.entries, e ∈ s.connections.entries := by
  induction todo generalizing k s with
  | nil => exact ⟨rfl, fun e he => he⟩
  | cons x rest ih =>
    rw [dispatch_list]
    by_cases hset : c.isset x.value = true
    · rw [if_pos hset]
      by_cases hj : c.j k = 0
      · rw [if_pos hj]
        obtain ⟨h1, h2⟩ := ih (k + 1)
          { s with connections := (ll_conn_remove s.connections x.value).2,
                   closed := s.closed ++ ll_conn_remove_closes s.connections x.value }
        exact ⟨h1, fun e he => ll_conn_remove_entries_subset s.connections x.value e (h2 e he)⟩
      · rw [if_neg hj]
        simp only
        by_cases hp : (l_read_conn (s.lua x.state) (c.socket k)).panic = true
        · rw [if_pos hp]
          exact ⟨rfl, fun e he => he⟩
        · rw [if_neg hp]
          exact ih (k + 1) _
    · rw [if_neg hset]
      exact ih (k + 1) s

/-- What the loop of `main` keeps true of `maxfd` between turns. -/
theorem main_cycle_maxfd (listenfd : Int) (s : server) (c : cycle)
    (hl : listenfd < INT_MAX) (hc : c.accepted < INT_MAX)
    (h0 : 0 ≤ s.maxfd) (h1 : s.maxfd ≤ INT_MAX)
    (h2 : ∀ e ∈ s.connections.entries, e.value < s.maxfd) :
    0 ≤ (main_cycle listenfd s c).maxfd ∧ (main_cycle listenfd s c).maxfd ≤ INT_MAX ∧
    (∀ e ∈ (main_cycle listenfd s c).connections.entries,
      e.value < (main_cycle listenfd s c).maxfd) ∧
    s.maxfd ≤ (main_cycle listenfd s c).maxfd ∧
    (s.panic = false → select_nfds listenfd s ≤ (main_cycle listenfd s c).maxfd) := by
  have hn0 : 0 ≤ select_nfds listenfd s ∧ select_nfds listenfd s ≤ INT_MAX ∧
      s.maxfd ≤ select_nfds listenfd s := by
    unfold select_nfds
    split
    · rw [wrap32_of_range _ (by unfold INT_MIN; omega) (by unfold INT_MAX at *; omega)]
      unfold INT_MAX at *
      omega
    · exact ⟨h0, h1, le_refl _⟩
  unfold main_cycle
  by_cases hp : s.panic = true
  · rw [if_pos hp]
    exact ⟨h0, h1, h2, le_refl _, fun h => by rw [hp] at h; cases h⟩
  · rw [if_neg hp]
    simp only
    by_cases hn : c.n > 0
    · rw [if_pos hn]
      by_cases hset : c.isset listenfd = true
      · rw [if_pos hset]
        have ha0 : 0 ≤ (accept_step c.accepted { s with maxfd := select_nfds listenfd s }).maxfd ∧
            (accept_step c.accepted { s with maxfd := select_nfds listenfd s }).maxfd ≤ INT_MAX ∧
            select_nfds listenfd s ≤
              (accept_step c.accepted { s with maxfd := select_nfds listenfd s }).maxfd ∧
            c.accepted <
              (accept_step c.accepted { s with maxfd := select_nfds listenfd s }).maxfd := by
          simp only [accept_step, l_create_state]
          split
          · rename_i hge
            rw [wrap32_of_range _ (by unfold INT_MIN; omega) (by unfold INT_MAX at *; omega)]
            unfold INT_MAX at *
            omega
          · rename_i hlt
            exact ⟨hn0.1, hn0.2.1, le_refl _, by omega⟩
        have hent : ∀ e ∈
            (accept_step c.accepted { s with maxfd := select_nfds listenfd s }).connections.entries,
            e.value <
              (accept_step c.accepted { s with maxfd := select_nfds listenfd s }).maxfd := by
          intro e he
          simp only [accept_step, l_create_state] at he
          rcases ll_conn_append_entries_subset _ _ _ e he with h | h
          · have := h2 e h
            omega
          · rw [h]
            exact ha0.2.2.2
        obtain ⟨d1, d2⟩ := dispatch_list_maxfd c
          (accept_step c.accepted { s with maxfd := select_nfds listenfd s }).connections.entries 0
          (accept_step c.accepted { s with maxfd := select_nfds listenfd s })
        rw [d1]
        exact ⟨ha0.1, ha0.2.1, fun e he => hent e (d2 e he), by omega, fun _ => ha0.2.2.1⟩
      · rw [if_neg hset]
        obtain ⟨d1, d2⟩ := dispatch_list_maxfd c s.connections.entries 0
          { s with maxfd := select_nfds listenfd s }
        rw [d1]
        refine ⟨hn0.1, hn0.2.1, fun e he => ?_, hn0.2.2, fun _ => le_refl _⟩
        have := h2 e (d2 e he)
        simp only
        omega
    · rw [if_neg hn]
      refine ⟨hn0.1, hn0.2.1, fun e he => ?_, hn0.2.2, fun _ => le_refl _⟩
      have := h2 e he
      simp only
      omega

theorem main_loop_maxfd (listenfd : Int) (cycles : List cycle) (s : server)
    (hl : listenfd < INT_MAX) (hacc : ∀ x ∈ cycles, x.accepted < INT_MAX)
    (h0 : 0 ≤ s.maxfd) (h1 : s.maxfd ≤ INT_MAX)
    (h2 : ∀ e ∈ s.connections.entries, e.value < s.maxfd) :
    0 ≤ (main_loop listenfd s cycles).maxfd ∧ (main_loop listenfd s cycles).maxfd ≤ INT_MAX ∧
    ∀ e ∈ (main_loop listenfd s cycles).connections.entries,
      e.value < (main_loop listenfd s cycles).maxfd := by
  induction cycles generalizing s with
  | nil => exact ⟨h0, h1, h2⟩
  | cons c rest ih =>
    obtain ⟨a, b, d, -, -⟩ := main_cycle_maxfd listenfd s c hl (hacc c (by simp)) h0 h1 h2
    simp only [main_loop, List.foldl_cons]
    exact ih (main_cycle listenfd s c) (fun x hx => hacc x (List.mem_cons_of_mem _ hx)) a b d

/-- C20: for every listening descriptor and every sequence of turns of the loop of
`main` whose `accept` results are below `INT_MAX` (so that `connfd + 1` does not
overflow; likewise `listenfd`), at the `select` call that follows these turns the `nfds`
argument `maxfd` is strictly greater than `listenfd` and than the descriptor of every
connection in the list; and neither `maxfd` nor the argument of `select` decreases from
one turn to the next. -/
theorem main_maxfd_covers (listenfd : Int) (cycles : List cycle) (c : cycle)
    (hl : listenfd < INT_MAX) (hacc : ∀ x ∈ cycles, x.accepted < INT_MAX)
    (hc : c.accepted < INT_MAX) :
    listenfd < select_nfds listenfd (main_loop listenfd main_init cycles) ∧
    (∀ e ∈ (main_loop listenfd main_init cycles).connections.entries,
      e.value < select_nfds listenfd (main_loop listenfd main_init cycles)) ∧
    (main_loop listenfd main_init cycles).maxfd ≤
      (main_loop listenfd main_init (cycles ++ [c])).maxfd ∧
    select_nfds listenfd (main_loop listenfd main_init cycles) ≤
      select_nfds listenfd (main_loop listenfd main_init (cycles ++ [c])) := by
  obtain ⟨a, b, d⟩ := main_loop_maxfd listenfd cycles main_init hl hacc (le_refl _)
    (by unfold INT_MAX; simp [main_init]) (by simp [main_init, ll_conn_create])
  obtain ⟨a', b', d', m1, m2⟩ := main_cycle_maxfd listenfd
    (main_loop listenfd main_init cycles) c hl hc a b d
  have hstep : main_loop listenfd main_init (cycles ++ [c]) =
      main_cycle listenfd (main_loop listenfd main_init cycles) c := by
    simp [main_loop, List.foldl_append]
  rw [hstep]
  have key : ∀ t : server, 0 ≤ t.maxfd → t.maxfd ≤ INT_MAX →
      listenfd < select_nfds listenfd t ∧ t.maxfd ≤ select_nfds listenfd t := by
    intro t t0 t1
    unfold select_nfds
    split
    · rw [wrap32_of_range _ (by unfold INT_MIN; omega) (by unfold INT_MAX at *; omega)]
      omega
    · omega
  obtain ⟨k1, k2⟩ := key _ a b
  obtain ⟨k3, k4⟩ := key _ a' b'
  refine ⟨k1, fun e he => ?_, m1, ?_⟩
  · have := d e he
    omega
  · by_cases hp : (main_loop listenfd main_init cycles).panic = true
    · have : main_cycle listenfd (main_loop listenfd main_init cycles) c =
          main_loop listenfd main_init cycles := by
        unfold main_cycle
        rw [if_pos hp]
      rw [this]
    · have := m2 (by simpa using hp)
      omega

/-- Witness for C20: the listener on descriptor 3, a turn that accepts descriptor 4 and
a further turn that accepts descriptor 5. -/
theorem main_maxfd_covers_witness :
    (3 : Int) < select_nfds 3 (main_loop 3 main_init [accept_cycle 3 4]) ∧
    (∀ e ∈ (main_loop 3 main_init [accept_cycle 3 4]).connections.entries,
      e.value < select_nfds 3 (main_loop 3 main_init [accept_cycle 3 4])) ∧
    (main_loop 3 main_init [accept_cycle 3 4]).maxfd ≤
      (main_loop 3 main_init ([accept_cycle 3 4] ++ [accept_cycle 3 5])).maxfd ∧
    select_nfds 3 (main_loop 3 main_init [accept_cycle 3 4]) ≤
      select_nfds 3 (main_loop 3 main_init ([accept_cycle 3 4] ++ [accept_cycle 3 5])) :=
  main_maxfd_covers 3 [accept_cycle 3 4] (accept_cycle 3 5) (by decide) (by decide) (by decide)

/-! ### The pass over the entries is the pass over the heap -/

namespace Mem

/-- `ll_conn_remove` on a heap that holds a list, with what it leaves in the sentinel. -/
theorem ll_conn_remove_found_sentinel (m : memory) (list : Nat) (sentinel : node_t) (v : Int)
    (pre : List (Nat × conn_entry)) (x : Nat × conn_entry)
    (post : List (Nat × conn_entry)) (fuel : Nat)
    (hlist : is_list m.heap list (pre ++ x :: post)) (hs : m.heap list = some sentinel)
    (hv : x.2.value = v) (hpre : ∀ n ∈ pre, n.2.value ≠ v) (hfuel : pre.length < fuel) :
    ∃ m' sentinel', ll_conn_remove fuel m list v = .ok (1, m') ∧
      is_list m'.heap list (pre ++ post) ∧ m'.heap list = some sentinel' ∧
      sentinel'.value = wrap32 (sentinel.value - 1) ∧
      m'.closed = m.closed ++ [x.2.state] := by
  obtain ⟨⟨s0, hs0, hchain⟩, hnd⟩ := hlist
  rw [hs] at hs0
  cases hs0
  obtain ⟨m', hrun, hcl, -, -, ⟨it', hit', hchain', -, -, hval⟩, -, -⟩ :=
    ll_conn_remove_loop_found list v x.1 x.2 post hv pre fuel m list sentinel hs hchain hnd
      (Or.inl rfl) hpre hfuel
  refine ⟨m', it', hrun, ⟨⟨it', hit', hchain'⟩, ?_⟩, hit', hval rfl, hcl⟩
  refine hnd.sublist ?_
  simp only [List.map_append, List.map_cons]
  exact List.Sublist.cons₂ _
    (List.Sublist.append (List.Sublist.refl _) (List.sublist_cons_self _ _))

theorem ll_conn_remove_closes_split (count v : Int) (pre : List (Nat × conn_entry))
    (x : Nat × conn_entry) (post : List (Nat × conn_entry)) (hx : x.2.value = v)
    (hpre : ∀ n ∈ pre, n.2.value ≠ v) :
    ll_conn_remove_closes { value := count, entries := (pre ++ x :: post).map Prod.snd } v =
      [x.2.state] := by
  induction pre with
  | nil => simp [ll_conn_remove_closes, List.find?, hx]
  | cons b pre ih =>
    have hb : b.2.value ≠ v := hpre b (by simp)
    have ih' := ih (fun n hn => hpre n (List.mem_cons_of_mem _ hn))
    simp only [ll_conn_remove_closes, List.cons_append, List.map_cons, List.find?, hb,
      decide_False] at ih' ⊢
    exact ih'

/-- Refinement: when the heap holds the list `done ++ todo`, `temp` points at the first
node of `todo`, and the state of `main` holds the same sentinel count, entries and log
of closed states, the dispatch loop over the heap ends without fault in a heap that
holds what `dispatch_list` over the entries of `todo` leaves, with the same Lua states
and the same outcome: both run to the end of the list, or both stop at the same
`l_read_conn` whose `lua_call` aborts. -/
theorem dispatch_loop_refines (rfuel list : Nat) (c : cycle)
    (todo : List (Nat × conn_entry)) (done : List (Nat × conn_entry)) (m : memory)
    (temp k : Nat) (log : List pass_event) (fuel : Nat) (s : server) (sentinel : node_t)
    (hlist : is_list m.heap list (done ++ todo)) (htemp : chain m.heap temp todo)
    (hs : m.heap list = some sentinel)
    (hconn : s.connections =
      { value := sentinel.value, entries := (done ++ todo).map Prod.snd })
    (hcl : s.closed = m.closed) (hpan : s.panic = false)
    (hfuel : todo.length < fuel) (hrfuel : (done ++ todo).length < rfuel) :
    ∃ r sentinel' nodes',
      dispatch_loop rfuel list c.isset c.j c.socket fuel m s.lua temp k log = .ok r ∧
      is_list r.mem.heap list nodes' ∧ r.mem.heap list = some sentinel' ∧
      (dispatch_list c (todo.map Prod.snd) k s).connections =
        { value := sentinel'.value, entries := nodes'.map Prod.snd } ∧
      (dispatch_list c (todo.map Prod.snd) k s).closed = r.mem.closed ∧
      (dispatch_list c (todo.map Prod.snd) k s).lua = r.lua ∧
      (dispatch_list c (todo.map Prod.snd) k s).panic = r.panic := by
  induction todo generalizing done m temp k log fuel s sentinel with
  | nil =>
    simp only [chain] at htemp
    cases fuel with
    | zero => exact absurd hfuel (Nat.lt_irrefl _)
    | succ f =>
      refine ⟨⟨m, log, s.lua, false⟩, sentinel, done, ?_, by simpa using hlist, hs, ?_, ?_,
        ?_, ?_⟩
      · simp [dispatch_loop, htemp]
      · simpa [dispatch_list] using hconn
      · simpa [dispatch_list] using hcl
      · simp [dispatch_list]
      · simpa [dispatch_list] using hpan
  | cons n todo ih =>
    obtain ⟨a, e⟩ := n
    obtain ⟨hta, ha0, nx, hha, hnx⟩ := htemp
    simp only at hta ha0 hha
    subst hta
    cases fuel with
    | zero => exact absurd hfuel (Nat.not_lt_zero _)
    | succ f =>
      have hf : todo.length < f := by simp only [List.length_cons] at hfuel; omega
      have hassoc : done ++ (temp, e) :: todo = (done ++ [(temp, e)]) ++ todo := by simp
      simp only [List.map_cons, dispatch_list]
      simp only [dispatch_loop, ha0, if_false, load, hha]
      by_cases hset : c.isset e.value = true
      · rw [if_pos hset, if_pos hset]
        by_cases hj : c.j k = 0
        · rw [if_pos hj, if_pos hj]
          obtain ⟨pre, x, post, hsplit, hx, hpre⟩ := split_first e.value (done ++ [(temp, e)])
            ⟨(temp, e), by simp, rfl⟩
          have hnodes : done ++ (temp, e) :: todo = pre ++ x :: (post ++ todo) := by
            rw [hassoc, hsplit]
            simp
          have hlen : pre.length < rfuel := by
            have := congrArg List.length hnodes
            simp only [List.length_append, List.length_cons] at this hrfuel
            omega
          obtain ⟨m1, s1, hrun, hlist1, hs1, hval1, hcl1⟩ := ll_conn_remove_found_sentinel m list
            sentinel e.value pre x (post ++ todo) rfuel (hnodes ▸ hlist) hs hx hpre hlen
          rw [hrun]
          simp only
          have hlist1' : is_list m1.heap list ((pre ++ post) ++ todo) := by
            simpa using hlist1
          have hnx1 : chain m1.heap nx todo := by
            obtain ⟨⟨t1, -, hc1⟩, -⟩ := hlist1'
            obtain ⟨q, hq⟩ := chain_suffix m1.heap t1.next (pre ++ post) todo hc1
            have := chain_start_eq m1.heap m.heap q nx todo hq hnx
            exact this ▸ hq
          have hlen1 : ((pre ++ post) ++ todo).length < rfuel := by
            have := congrArg List.length hnodes
            simp only [List.length_append, List.length_cons] at this hrfuel ⊢
            omega
          have hrem : (LuaServer.ll_conn_remove s.connections e.value).2 =
              { value := s1.value, entries := ((pre ++ post) ++ todo).map Prod.snd } := by
            rw [hconn, hnodes]
            simp only [LuaServer.ll_conn_remove,
              ll_conn_remove_loop_split e.value pre x (post ++ todo) hx hpre, hval1]
            simp
          have hclo : s.closed ++ ll_conn_remove_closes s.connections e.value = m1.closed := by
            rw [hconn, hnodes, ll_conn_remove_closes_split _ e.value pre x (post ++ todo) hx hpre,
              hcl1, hcl]
          exact ih (pre ++ post) m1 nx (k + 1) _ f
            { s with connections := (LuaServer.ll_conn_remove s.connections e.value).2,
                     closed := s.closed ++ ll_conn_remove_closes s.connections e.value }
            s1 hlist1' hnx1 hs1 hrem hclo hpan hf hlen1
        · rw [if_neg hj, if_neg hj]
          by_cases hp : (l_read_conn (s.lua e.state) (c.socket k)).panic = true
          · rw [if_pos hp, if_pos hp]
            refine ⟨_, sentinel, done ++ (temp, e) :: todo, rfl, hlist, hs, ?_, hcl, rfl, ?_⟩
            · simpa using hconn
            · simp [hp]
          · rw [if_neg hp, if_neg hp]
            exact ih (done ++ [(temp, e)]) m nx (k + 1) _ f
              { s with lua := fun p => if p = e.state then
                         (l_read_conn (s.lua e.state) (c.socket k)).L else s.lua p,
                       panic := (l_read_conn (s.lua e.state) (c.socket k)).panic }
              sentinel (hassoc ▸ hlist) hnx hs
              (by simpa using hconn) hcl (by simpa using hp) hf
              (by rw [← hassoc]; exact hrfuel)
      · rw [if_neg hset, if_neg hset]
        exact ih (done ++ [(temp, e)]) m nx (k + 1) _ f s sentinel (hassoc ▸ hlist) hnx hs
          (by simpa using hconn) hcl hpan hf (by rw [← hassoc]; exact hrfuel)

/-- Refinement of the whole pass: see `dispatch_loop_refines`. -/
theorem dispatch_pass_refines (rfuel fuel connections : Nat) (c : cycle)
    (nodes : List (Nat × conn_entry)) (m : memory) (s : server) (sentinel : node_t)
    (hlist : is_list m.heap connections nodes) (hs : m.heap connections = some sentinel)
    (hconn : s.connections = { value := sentinel.value, entries := nodes.map Prod.snd })
    (hcl : s.closed = m.closed) (hpan : s.panic = false)
    (hfuel : nodes.length < fuel) (hrfuel : nodes.length < rfuel) :
    ∃ r sentinel' nodes',
      dispatch_pass rfuel fuel m s.lua connections c.isset c.j c.socket = .ok r ∧
      is_list r.mem.heap connections nodes' ∧ r.mem.heap connections = some sentinel' ∧
      (dispatch_list c s.connections.entries 0 s).connections =
        { value := sentinel'.value, entries := nodes'.map Prod.snd } ∧
      (dispatch_list c s.connections.entries 0 s).closed = r.mem.closed ∧
      (dispatch_list c s.connections.entries 0 s).lua = r.lua ∧
      (dispatch_list c s.connections.entries 0 s).panic = r.panic := by
  have hl := hlist
  obtain ⟨⟨s0, hs0, hchain⟩, -⟩ := hl
  rw [hs] at hs0
  cases hs0
  have hent : s.connections.entries = nodes.map Prod.snd := by rw [hconn]
  rw [hent]
  obtain ⟨r, sentinel', nodes', h1, h2, h3, h4, h5, h6, h7⟩ := dispatch_loop_refines rfuel
    connections c nodes [] m sentinel.next 0 [] fuel s sentinel (by simpa using hlist) hchain hs
    (by simpa using hconn) hcl hpan hfuel (by simpa using hrfuel)
  refine ⟨r, sentinel', nodes', ?_, h2, h3, h4, h5, h6, h7⟩
  simp only [dispatch_pass, load, hs]
  exact h1

end Mem

/-! ### `ll_conn_delete` on every list -/

namespace Mem

/-- What `ll_conn_delete` does on every heap that holds a list: it gives to `lua_close`
the states of the sentinel and of all the nodes but the last, frees these same nodes,
and leaves the last node of the list (the sentinel, when the list is empty) allocated. -/
theorem ll_conn_delete_loop_spec (nodes : List (Nat × conn_entry)) (fuel : Nat) (m : memory)
    (list : Nat) (l : node_t)
    (h1 : m.heap list = some l) (h2 : chain m.heap l.next nodes)
    (h3 : (list :: nodes.map Prod.fst).Nodup) (hfuel : nodes.length < fuel) :
    ∃ m', ll_conn_delete_loop fuel m list l.next = .ok m' ∧
      m'.closed = m.closed ++ (l.state :: nodes.map (fun n => n.2.state)).dropLast ∧
      m'.freed = m.freed ++ (list :: nodes.map Prod.fst).dropLast ∧
      ∀ a, (list :: nodes.map Prod.fst).getLast? = some a → m'.heap a = m.heap a ∧
        m.heap a ≠ none := by
  induction nodes generalizing fuel m list l with
  | nil =>
    simp only [chain] at h2
    cases fuel with
    | zero => exact absurd hfuel (Nat.lt_irrefl _)
    | succ f =>
      refine ⟨m, by simp [ll_conn_delete_loop, h2], by simp, by simp, ?_⟩
      intro a ha
      simp only [List.map_nil, List.getLast?_singleton, Option.some.injEq] at ha
      subst ha
      exact ⟨rfl, by rw [h1]; simp⟩
  | cons n rest ih =>
    obtain ⟨hnext, hn0, nx, hhn, hrest⟩ := h2
    simp only [List.map_cons, List.nodup_cons, List.mem_cons, not_or] at h3
    obtain ⟨⟨hln, hlrest⟩, hnrest, hnd⟩ := h3
    cases fuel with
    | zero => exact absurd hfuel (Nat.not_lt_zero _)
    | succ f =>
      have hnext0 : l.next ≠ 0 := by rw [hnext]; exact hn0
      have hload : store m.heap list none n.1 =
          some { next := nx, value := n.2.value, state := n.2.state } := by
        rw [store_other _ _ _ _ (fun e => hln e.symm)]
        exact hhn
      have hchain : chain (store m.heap list none) nx rest := by
        refine chain_frame m.heap _ nx rest hrest ?_
        intro a ha
        exact store_other _ _ _ _ (fun e => hlrest (e ▸ ha))
      obtain ⟨m', hrun, hcl, hfr, hlast⟩ := ih f
        (memory.mk (store m.heap list none) (m.closed ++ [l.state]) (m.freed ++ [list]))
        n.1 { next := nx, value := n.2.value, state := n.2.state } hload hchain
        (by simp only [List.nodup_cons]; exact ⟨hnrest, hnd⟩)
        (by simp only [List.length_cons] at hfuel; omega)
      refine ⟨m', ?_, ?_, ?_, ?_⟩
      · simp only [ll_conn_delete_loop, hnext0, if_false, load, h1, hnext, hload]
        rw [if_neg hn0]
        exact hrun
      · rw [hcl]
        simp [List.dropLast]
      · rw [hfr]
        simp [List.dropLast]
      · intro a ha
        have ha' : (n.1 :: rest.map Prod.fst).getLast? = some a := by
          simpa [List.getLast?_cons_cons] using ha
        obtain ⟨e1, e2⟩ := hlast a ha'
        have hal : a ≠ list := by
          intro e
          have hmem := List.mem_of_getLast?_eq_some ha'
          rw [e] at hmem
          simp only [List.mem_cons] at hmem
          rcases hmem with h | h
          · exact hln h
          · exact hlrest h
        simp only at e1 e2
        rw [store_other _ _ _ _ hal] at e1 e2
        exact ⟨e1, e2⟩

theorem ll_conn_delete_spec (nodes : List (Nat × conn_entry)) (fuel : Nat) (m : memory)
    (list : Nat) (sentinel : node_t)
    (hlist : is_list m.heap list nodes) (hs : m.heap list = some sentinel)
    (hfuel : nodes.length < fuel) :
    ∃ m', ll_conn_delete fuel m list = .ok m' ∧
      m'.closed = m.closed ++ (sentinel.state :: nodes.map (fun n => n.2.state)).dropLast ∧
      m'.freed = m.freed ++ (list :: nodes.map Prod.fst).dropLast ∧
      ∀ a, (list :: nodes.map Prod.fst).getLast? = some a → m'.heap a = m.heap a ∧
        m.heap a ≠ none := by
  obtain ⟨⟨s0, hs0, hchain⟩, hnd⟩ := hlist
  rw [hs] at hs0
  cases hs0
  obtain ⟨m', h1, h2, h3, h4⟩ := ll_conn_delete_loop_spec nodes fuel m list sentinel hs hchain
    hnd hfuel
  refine ⟨m', ?_, h2, h3, h4⟩
  simp only [ll_conn_delete, load, hs]
  exact h1

end Mem

end LuaServer
